import Mathlib

/-!
Verification of `data_utility/scripts/generate_speaker_trials.py`.

The script aggregates labeled audio samples (`WavAudioDataSampleTrialAggregator`),
groups the unique sample ids by speaker (`_samples_per_speaker`), and then runs a
round-robin pair-enumeration scheduler (`_exhaust_pairs_iterator_dictionary`) twice
— once over per-speaker combination generators (`_positive_pairs`) and once over
per-speaker-pair cross-product generators (`_negative_pairs`) — before assembling
the deduplicated, sorted trial list (`generate_speaker_trials`).

This file embeds those functions shallowly:
* Python `str` comparison is the kernel-computable code-point order `strLeb`;
* a `set` is a duplicate-free list, a `dict` an insertion-ordered association list;
* a lazy generator is the list of pairs it will still yield;
* the unordered `frozenset([p1, p2])` used for deduplication is the pair sorted by
  id (`canonPair`), which has the same identity;
* the `while` loop of the scheduler is a fuelled recursion; the wrapper supplies
  enough fuel for the loop to reach its natural termination, which is proved;
* sample ids are quantified as arbitrary strings, and the iteration order of the
  ingested sample set is an explicit list parameter.
-/

namespace GenSpeakerTrials

/-- Lexicographic comparison of character lists by code point; kernel-computable
model of Python's `<=` on strings (used by `sorted`). -/
def lexLeb : List Char → List Char → Bool
  | [], _ => true
  | _ :: _, [] => false
  | a :: as, b :: bs =>
    if a.toNat < b.toNat then true
    else if b.toNat < a.toNat then false
    else lexLeb as bs

/-- Python string `<=` (code-point lexicographic order). -/
def strLeb (a b : String) : Bool := lexLeb a.data b.data

/-- Ordered pair of sample ids, as yielded by the pair generators. -/
abbrev RawPair := String × String

/-- Canonical form of an unordered sample pair: models the `frozenset([p1, p2])`
used for deduplication, represented as the pair sorted by id (two raw pairs have
equal `canonPair` exactly when their `frozenset`s coincide). -/
def canonPair (p : RawPair) : RawPair := if strLeb p.1 p.2 then p else (p.2, p.1)

/-- Yields of `itertools.combinations(v, r=2)`: every position-ordered pair of `v`,
in the order the iterator produces them. -/
def combinations2 : List String → List RawPair
  | [] => []
  | x :: xs => xs.map (fun y => (x, y)) ++ combinations2 xs

/-- Yields of `itertools.product(v1, v2)`, in iterator order. -/
def productPairs (v1 v2 : List String) : List RawPair :=
  v1.flatMap (fun a => v2.map (fun b => (a, b)))

/-- Lookup in an insertion-ordered association list (a Python `dict`). -/
def lookupKey [DecidableEq K] (k : K) : List (K × A) → Option A
  | [] => none
  | kv :: rest => if kv.1 = k then some kv.2 else lookupKey k rest

/-- Python `del d[k]` on an insertion-ordered `dict` (keys are unique, so removing
the first binding removes the binding). -/
def removeKey [DecidableEq K] (k : K) : List (K × A) → List (K × A)
  | [] => []
  | kv :: rest => if kv.1 = k then rest else kv :: removeKey k rest

/-- In-place replacement of the value bound at an existing key: models advancing
the iterator object stored at `d[k]` (dict order is unchanged). -/
def updateKey [DecidableEq K] (k : K) (v : A) : List (K × A) → List (K × A)
  | [] => []
  | kv :: rest => if kv.1 = k then (k, v) :: rest else kv :: updateKey k v rest

/-- Python `d[k] = v` on a `dict`: replaces an existing binding or appends a new
one. -/
def dictInsert [DecidableEq K] (m : List (K × A)) (k : K) (v : A) : List (K × A) :=
  match m with
  | [] => [(k, v)]
  | kv :: rest => if kv.1 = k then (k, v) :: rest else kv :: dictInsert rest k v

/-- Python `set.add` on a set modelled as a duplicate-free list. -/
def setAdd (l : List String) (x : String) : List String :=
  if x ∈ l then l else l ++ [x]

/-- Insertion step of Python's `sorted` (ascending by `le`). -/
def insertKey (le : K → K → Bool) (x : K) : List K → List K
  | [] => [x]
  | y :: ys => if le x y then x :: y :: ys else y :: insertKey le x ys

/-- Python's `sorted` by comparison `le` (modelled as insertion sort; the keys
sorted in this development are pairwise distinct, so any correct sort produces
the same list). -/
def sortKeys (le : K → K → Bool) : List K → List K
  | [] => []
  | x :: xs => insertKey le x (sortKeys le xs)

/-- Result of `_exhaust_pairs_iterator_dictionary`: the collected pair list, the
`ValueError("duplicate entry")`, or artifacts of the fuelled loop model
(`outOfFuel` when the fuel bound is hit; `stuck` models the `KeyError`/pop-on-empty
cases that the loop structure makes unreachable). -/
inductive RRResult where
  | ok (pairs : List RawPair)
  | dupError
  | outOfFuel
  | stuck
deriving DecidableEq

/-- The loop guard `continue_loop()` of `_exhaust_pairs_iterator_dictionary`. -/
def continueLoop (numGens numPairs : Nat) (limit : Option Nat) : Bool :=
  match limit with
  | none => decide (0 < numGens)
  | some n => decide (0 < numGens) && decide (numPairs < n)

/-- Generator dictionary of the scheduler: group key ↦ pairs the (finite,
non-restartable) iterator will still yield. -/
abbrev GenDict (K : Type) := List (K × List RawPair)

/-- The `while` loop of `_exhaust_pairs_iterator_dictionary`. `le` is the key
comparison used by `sorted`; the key queue is refilled with the sorted still-live
keys when empty and popped from its end (`key_queue.pop()`); popping a key pulls
one pair from its generator: an exhausted generator is deleted from the
dictionary, a yielded pair is canonicalized and checked against the global
deduplication set (`pairs`), raising on a duplicate. -/
def rrLoop [DecidableEq K] (le : K → K → Bool) :
    Nat → GenDict K → List K → List RawPair → Option Nat → RRResult
  | 0, gens, _, pairs, limit =>
    if continueLoop gens.length pairs.length limit then .outOfFuel else .ok pairs
  | fuel + 1, gens, queue, pairs, limit =>
    if continueLoop gens.length pairs.length limit then
      match (if queue.isEmpty then sortKeys le (gens.map (·.1)) else queue).getLast? with
      | none => .stuck
      | some key =>
        match lookupKey key gens with
        | none => .stuck
        | some [] =>
          rrLoop le fuel (removeKey key gens)
            (if queue.isEmpty then sortKeys le (gens.map (·.1)) else queue).dropLast
            pairs limit
        | some (p :: rest) =>
          if canonPair p ∈ pairs then .dupError
          else
            rrLoop le fuel (updateKey key rest gens)
              (if queue.isEmpty then sortKeys le (gens.map (·.1)) else queue).dropLast
              (pairs ++ [canonPair p]) limit
    else .ok pairs

/-- Fuel sufficient for the scheduler loop to reach natural termination (proved
below: each iteration consumes one yield or deletes one generator). -/
def fuelFor (gens : GenDict K) : Nat :=
  (gens.map (fun kv => kv.2.length)).sum + gens.length + 1

/-- Embeds `_exhaust_pairs_iterator_dictionary` (initial queue
`sorted(generators.keys())`, empty dedup set). -/
def exhaust_pairs_iterator_dictionary [DecidableEq K] (le : K → K → Bool)
    (gens : GenDict K) (limit : Option Nat) : RRResult :=
  rrLoop le (fuelFor gens) gens (sortKeys le (gens.map (·.1))) [] limit

/-- Embeds `_positive_pairs`: one combination generator per speaker, the
dictionary filled in `sorted(samples_per_speaker.items())` order (keys are
unique, so that sort is a sort by key). -/
def positive_pairs (spsp : List (String × List String)) (limit : Option Nat) :
    RRResult :=
  exhaust_pairs_iterator_dictionary strLeb
    ((sortKeys (fun kv1 kv2 => strLeb kv1.1 kv2.1) spsp).map
      (fun kv => (kv.1, combinations2 kv.2)))
    limit

/-- Python tuple comparison on string pairs (lexicographic). -/
def strPairLeb (p q : String × String) : Bool :=
  if p.1 = q.1 then strLeb p.2 q.2 else strLeb p.1 q.1

/-- The `speaker_pair_set` of `_negative_pairs`: every `tuple(sorted([k1, k2]))`
over distinct keys, skipping pairs of differing gender when
`ensure_same_sex_trials` is set. Python builds a `set`; it is modelled as a
deduplicated enumeration (the set's iteration order only feeds dictionary
insertion order, which the scheduler re-sorts). -/
def speakerPairSet (keys : List String) (ensure_same_sex_trials : Bool)
    (gender_map : String → String) : List (String × String) :=
  (keys.flatMap (fun k1 => keys.filterMap (fun k2 =>
    if k1 = k2 ∨ (ensure_same_sex_trials = true ∧ gender_map k1 ≠ gender_map k2) then none
    else some (canonPair (k1, k2))))).dedup

/-- Embeds `_negative_pairs`: one cross-product generator per qualifying speaker
pair. The accesses `gender_map[k1]` and `samples_per_speaker[k]` presume the key
is present (true for every call site), so the gender map is modelled as a total
function and the group lookup defaults to the empty list. -/
def negative_pairs (spsp : List (String × List String))
    (ensure_same_sex_trials : Bool) (gender_map : String → String)
    (limit : Option Nat) : RRResult :=
  let sps := speakerPairSet (spsp.map (·.1)) ensure_same_sex_trials gender_map
  exhaust_pairs_iterator_dictionary strPairLeb
    (sps.map (fun kk =>
      (kk, productPairs ((lookupKey kk.1 spsp).getD [])
        ((lookupKey kk.2 spsp).getD []))))
    limit

/-- Embeds `_samples_per_speaker`'s loop body:
`samples_per_speaker[speaker].append(sample)` on an insertion-ordered
`defaultdict(list)`. -/
def addToGroup (m : List (String × List String)) (spk s : String) :
    List (String × List String) :=
  match m with
  | [] => [(spk, [s])]
  | kv :: rest =>
    if kv.1 = spk then (kv.1, kv.2 ++ [s]) :: rest else kv :: addToGroup rest spk s

/-- Embeds `_samples_per_speaker`; `samples` is the unique-sample set in its
iteration order, and the sample→speaker `dict` (total on the ingested samples)
is a function. -/
def samples_per_speaker (samples : List String)
    (map_sample_to_speaker : String → String) : List (String × List String) :=
  samples.foldl (fun m s => addToGroup m (map_sample_to_speaker s) s) []

/-- Modelled from the spec: the `SpeakerTrial` record (defined in
`data_utility.eval.speaker.evaluator`, which is not under `src/`) holds the two
sample ids of a canonical unordered pair together with the `same_speaker` flag
(§3 of the spec: a trial wraps a canonically represented `CandidatePair`). -/
structure SpeakerTrial where
  left : String
  right : String
  same_speaker : Bool
deriving DecidableEq

/-- Modelled from the spec: `str(trial)`, the sort key used by
`generate_speaker_trials` — "the two sample ids joined by a fixed, unambiguous
separator together with the same-speaker flag" (§4.4). -/
def trialStr (t : SpeakerTrial) : String :=
  t.left ++ " " ++ t.right ++ " " ++ (if t.same_speaker then "1" else "0")

/-- The comparison `key=lambda x: str(x)` used to sort each trial list. -/
def trialLeb (t1 t2 : SpeakerTrial) : Bool := strLeb (trialStr t1) (trialStr t2)

/-- Embeds `generate_speaker_trials`: group by speaker, run the scheduler in
positive and negative mode, wrap the pair lists into deduplicated trial sets,
sort each by `str`, and concatenate positives before negatives. Returns `none`
when the scheduler raises. -/
def generate_speaker_trials (samples : List String)
    (map_sample_to_speaker : String → String)
    (map_speaker_to_gender : String → String) (ensure_same_sex_trials : Bool)
    (limit_num_trials : Option Nat) : Option (List SpeakerTrial) :=
  let spsp := samples_per_speaker samples map_sample_to_speaker
  match positive_pairs spsp limit_num_trials with
  | .ok posP =>
    match negative_pairs spsp ensure_same_sex_trials map_speaker_to_gender
        limit_num_trials with
    | .ok negP =>
      let pos := (posP.map (fun p => SpeakerTrial.mk p.1 p.2 true)).dedup
      let neg := (negP.map (fun p => SpeakerTrial.mk p.1 p.2 false)).dedup
      some (sortKeys trialLeb pos ++ sortKeys trialLeb neg)
    | _ => none
  | _ => none

/-- Input record: `WavAudioDataSample` reduced to the fields the aggregator reads
(the container class itself is an external collaborator, not under `src/`). -/
structure WavAudioDataSample where
  key : String
  speaker_id : Option String
  gender : Option String

/-- State of `WavAudioDataSampleTrialAggregator` (`_map_speaker_id_to_gender` is
a `defaultdict(set)`: speaker ↦ duplicate-free list of observed genders). -/
structure WavAudioDataSampleTrialAggregator where
  speaker_ids : List String
  sample_ids : List String
  map_sample_id_to_speaker_id : List (String × String)
  map_speaker_id_to_gender : List (String × List String)
deriving DecidableEq

/-- Embeds `WavAudioDataSampleTrialAggregator.__call__`. -/
def aggregatorCall (a : WavAudioDataSampleTrialAggregator)
    (x : WavAudioDataSample) : Except String WavAudioDataSampleTrialAggregator :=
  if x.key ∈ a.sample_ids then .error "non-unique sample_id"
  else
    match x.speaker_id with
    | none => .error "missing speaker_id label"
    | some speaker_id =>
      match x.gender with
      | none => .error "missing gender label"
      | some gender =>
        .ok { speaker_ids := setAdd a.speaker_ids speaker_id
              sample_ids := setAdd a.sample_ids x.key
              map_sample_id_to_speaker_id :=
                dictInsert a.map_sample_id_to_speaker_id x.key speaker_id
              map_speaker_id_to_gender :=
                dictInsert a.map_speaker_id_to_gender speaker_id
                  (setAdd ((lookupKey speaker_id a.map_speaker_id_to_gender).getD [])
                    gender) }

/-- The per-speaker loop of `get_gender_mapping`: checks the gender set has
exactly one value (`ValueError` otherwise), pops it — mutating the set — asserts
it is `"f"` or `"m"`, and records it in the returned `OrderedDict`. -/
def genderLoop : List String → List (String × List String) →
    List (String × String) →
    Except String (List (String × String) × List (String × List String))
  | [], m, acc => .ok (acc, m)
  | spk :: rest, m, acc =>
    match (lookupKey spk m).getD [] with
    | [g] =>
      if g = "f" ∨ g = "m" then
        genderLoop rest (dictInsert m spk []) (acc ++ [(spk, g)])
      else .error "assert gender failed"
    | _ => .error "speaker has inconsistent gender set"

/-- Embeds `get_gender_mapping`. Modelled from the spec: the iteration key
`sort_speaker_id_key` (from `data_utility.util.various`, not under `src/`) maps
a speaker id to "the domain's canonical sortable key, not raw lexical order"
(§4.4); it is taken as the parameter `sortKey`. The method both returns the
mapping and mutates the per-speaker gender sets (`set.pop`), so the updated
aggregator state is returned alongside. -/
def get_gender_mapping (sortKey : String → Nat)
    (a : WavAudioDataSampleTrialAggregator) :
    Except String
      (List (String × String) × WavAudioDataSampleTrialAggregator) :=
  match genderLoop
      (sortKeys (fun k1 k2 => decide (sortKey k1 ≤ sortKey k2))
        (a.map_speaker_id_to_gender.map (·.1)))
      a.map_speaker_id_to_gender [] with
  | .ok (m, gm) => .ok (m, { a with map_speaker_id_to_gender := gm })
  | .error e => .error e

end GenSpeakerTrials

namespace GenSpeakerTrials

/-! ### Order properties of the string comparison -/

theorem char_toNat_inj {a b : Char} (h : a.toNat = b.toNat) : a = b :=
  Char.eq_of_val_eq (UInt32.ext h)

theorem lexLeb_refl (l : List Char) : lexLeb l l = true := by
  induction l with
  | nil => rfl
  | cons a as ih => simp [lexLeb, ih]

theorem lexLeb_total (l1 l2 : List Char) :
    lexLeb l1 l2 = true ∨ lexLeb l2 l1 = true := by
  induction l1 generalizing l2 with
  | nil => exact Or.inl rfl
  | cons a as ih =>
    cases l2 with
    | nil => exact Or.inr rfl
    | cons b bs =>
      rcases Nat.lt_trichotomy a.toNat b.toNat with h | h | h
      · exact Or.inl (by simp [lexLeb, h])
      · have hna : ¬ a.toNat < b.toNat := by omega
        have hnb : ¬ b.toNat < a.toNat := by omega
        rcases ih bs with h' | h'
        · exact Or.inl (by simp [lexLeb, hna, hnb, h'])
        · exact Or.inr (by simp [lexLeb, hna, hnb, h'])
      · exact Or.inr (by simp [lexLeb, h])

theorem lexLeb_antisymm :
    ∀ l1 l2, lexLeb l1 l2 = true → lexLeb l2 l1 = true → l1 = l2 := by
  intro l1
  induction l1 with
  | nil =>
    intro l2 _ h2
    cases l2 with
    | nil => rfl
    | cons b bs => simp [lexLeb] at h2
  | cons a as ih =>
    intro l2 h1 h2
    cases l2 with
    | nil => simp [lexLeb] at h1
    | cons b bs =>
      rcases Nat.lt_trichotomy a.toNat b.toNat with h | h | h
      · have hnb : ¬ b.toNat < a.toNat := by omega
        simp [lexLeb, hnb, h] at h2
      · have hna : ¬ a.toNat < b.toNat := by omega
        have hnb : ¬ b.toNat < a.toNat := by omega
        simp only [lexLeb, if_neg hna, if_neg hnb] at h1 h2
        rw [char_toNat_inj h, ih bs h1 h2]
      · have hna : ¬ a.toNat < b.toNat := by omega
        simp [lexLeb, hna, h] at h1

theorem lexLeb_trans :
    ∀ l1 l2 l3, lexLeb l1 l2 = true → lexLeb l2 l3 = true → lexLeb l1 l3 = true := by
  intro l1
  induction l1 with
  | nil => intro l2 l3 _ _; rfl
  | cons a as ih =>
    intro l2 l3 h1 h2
    cases l2 with
    | nil => simp [lexLeb] at h1
    | cons b bs =>
      cases l3 with
      | nil => simp [lexLeb] at h2
      | cons c cs =>
        rcases Nat.lt_trichotomy a.toNat b.toNat with hab | hab | hab
        · rcases Nat.lt_trichotomy b.toNat c.toNat with hbc | hbc | hbc
          · have : a.toNat < c.toNat := by omega
            simp [lexLeb, this]
          · have : a.toNat < c.toNat := by omega
            simp [lexLeb, this]
          · have hnb : ¬ b.toNat < c.toNat := by omega
            simp [lexLeb, hnb, hbc] at h2
        · rcases Nat.lt_trichotomy b.toNat c.toNat with hbc | hbc | hbc
          · have : a.toNat < c.toNat := by omega
            simp [lexLeb, this]
          · have hna : ¬ a.toNat < b.toNat := by omega
            have hnb : ¬ b.toNat < a.toNat := by omega
            have hnc : ¬ b.toNat < c.toNat := by omega
            have hnd : ¬ c.toNat < b.toNat := by omega
            have hne : ¬ a.toNat < c.toNat := by omega
            have hnf : ¬ c.toNat < a.toNat := by omega
            simp only [lexLeb, if_neg hna, if_neg hnb] at h1
            simp only [lexLeb, if_neg hnc, if_neg hnd] at h2
            simp only [lexLeb, if_neg hne, if_neg hnf]
            exact ih bs cs h1 h2
          · have hnc : ¬ b.toNat < c.toNat := by omega
            simp [lexLeb, hnc, hbc] at h2
        · have hna : ¬ a.toNat < b.toNat := by omega
          simp [lexLeb, hna, hab] at h1

theorem strLeb_refl (a : String) : strLeb a a = true := lexLeb_refl a.data

theorem strLeb_total (a b : String) : strLeb a b = true ∨ strLeb b a = true :=
  lexLeb_total a.data b.data

theorem strLeb_antisymm {a b : String} (h1 : strLeb a b = true)
    (h2 : strLeb b a = true) : a = b := by
  cases a with
  | mk da =>
    cases b with
    | mk db => exact congrArg String.mk (lexLeb_antisymm da db h1 h2)

theorem strLeb_trans {a b c : String} (h1 : strLeb a b = true)
    (h2 : strLeb b c = true) : strLeb a c = true :=
  lexLeb_trans a.data b.data c.data h1 h2

theorem strLeb_false {a b : String} (h : strLeb a b = false) : strLeb b a = true := by
  rcases strLeb_total a b with h' | h'
  · rw [h'] at h; cases h
  · exact h'

/-! ### The canonical (unordered) pair representation -/

theorem canonPair_comm (a b : String) : canonPair (a, b) = canonPair (b, a) := by
  by_cases hab : strLeb a b = true
  · by_cases hba : strLeb b a = true
    · have : a = b := strLeb_antisymm hab hba
      subst this
      rfl
    · simp [canonPair, hab, hba]
  · have hba : strLeb b a = true := strLeb_false (by simpa using hab)
    simp [canonPair, hab, hba]

theorem canonPair_eq_iff (a b c d : String) :
    canonPair (a, b) = canonPair (c, d) ↔ (a = c ∧ b = d) ∨ (a = d ∧ b = c) := by
  constructor
  · intro h
    by_cases hab : strLeb a b = true <;> by_cases hcd : strLeb c d = true <;>
      simp only [canonPair, hab, hcd, if_true, if_false, if_pos, if_neg,
        Bool.not_eq_true] at h <;>
      simp only [Prod.mk.injEq] at h <;> tauto
  · rintro (⟨rfl, rfl⟩ | ⟨rfl, rfl⟩)
    · rfl
    · exact canonPair_comm a b

theorem canonPair_mem_left (p : RawPair) :
    (canonPair p).1 = p.1 ∨ (canonPair p).1 = p.2 := by
  by_cases h : strLeb p.1 p.2 = true <;> simp [canonPair, h]

theorem canonPair_mem_right (p : RawPair) :
    (canonPair p).2 = p.1 ∨ (canonPair p).2 = p.2 := by
  by_cases h : strLeb p.1 p.2 = true <;> simp [canonPair, h]

/-! ### Sorting -/

theorem insertKey_perm (le : K → K → Bool) (x : K) (l : List K) :
    (insertKey le x l).Perm (x :: l) := by
  induction l with
  | nil => exact List.Perm.refl _
  | cons y ys ih =>
    by_cases h : le x y = true
    · simp [insertKey, h]
    · simp only [insertKey, if_neg h]
      exact ((ih.cons y).trans (List.Perm.swap x y ys)).symm.symm

theorem sortKeys_perm (le : K → K → Bool) (l : List K) :
    (sortKeys le l).Perm l := by
  induction l with
  | nil => exact List.Perm.refl _
  | cons x xs ih => exact (insertKey_perm le x (sortKeys le xs)).trans (ih.cons x)

theorem mem_sortKeys (le : K → K → Bool) (l : List K) (x : K) :
    x ∈ sortKeys le l ↔ x ∈ l :=
  (sortKeys_perm le l).mem_iff

theorem sortKeys_nodup (le : K → K → Bool) {l : List K} (h : l.Nodup) :
    (sortKeys le l).Nodup :=
  (sortKeys_perm le l).nodup_iff.mpr h

theorem pairwise_insertKey {le : K → K → Bool}
    (htot : ∀ a b, le a b = true ∨ le b a = true)
    (htr : ∀ a b c, le a b = true → le b c = true → le a c = true)
    (x : K) {l : List K} (h : l.Pairwise (fun a b => le a b = true)) :
    (insertKey le x l).Pairwise (fun a b => le a b = true) := by
  induction l with
  | nil => simp [insertKey]
  | cons y ys ih =>
    rcases List.pairwise_cons.mp h with ⟨hy, hys⟩
    by_cases hxy : le x y = true
    · simp only [insertKey, if_pos hxy]
      refine List.pairwise_cons.mpr ⟨?_, h⟩
      intro b hb
      rcases hb with _ | hb
      · exact hxy
      · exact htr x y b hxy (hy b (by assumption))
    · simp only [insertKey, if_neg hxy]
      refine List.pairwise_cons.mpr ⟨?_, ih hys⟩
      intro b hb
      have hb' : b ∈ x :: ys := (insertKey_perm le x ys).mem_iff.mp hb
      rcases hb' with _ | hb'
      · rcases htot x y with h' | h'
        · exact absurd h' hxy
        · exact h'
      · exact hy b (by assumption)

theorem pairwise_sortKeys {le : K → K → Bool}
    (htot : ∀ a b, le a b = true ∨ le b a = true)
    (htr : ∀ a b c, le a b = true → le b c = true → le a c = true)
    (l : List K) : (sortKeys le l).Pairwise (fun a b => le a b = true) := by
  induction l with
  | nil => simp [sortKeys]
  | cons x xs ih => exact pairwise_insertKey htot htr x ih

/-! ### Association lists -/

theorem lookupKey_dictInsert_self [DecidableEq K] (m : List (K × A)) (k : K)
    (v : A) : lookupKey k (dictInsert m k v) = some v := by
  induction m with
  | nil => simp [dictInsert, lookupKey]
  | cons kv rest ih =>
    by_cases h : kv.1 = k
    · simp [dictInsert, h, lookupKey]
    · simp [dictInsert, h, lookupKey, ih]

theorem lookupKey_dictInsert_ne [DecidableEq K] (m : List (K × A)) {k k' : K}
    (v : A) (h : k' ≠ k) : lookupKey k' (dictInsert m k v) = lookupKey k' m := by
  induction m with
  | nil => simp [dictInsert, lookupKey, Ne.symm h]
  | cons kv rest ih =>
    by_cases h1 : kv.1 = k
    · subst h1
      simp [dictInsert, lookupKey, Ne.symm h]
    · by_cases h2 : kv.1 = k'
      · simp [dictInsert, h1, lookupKey, h2, h]
      · simp [dictInsert, h1, lookupKey, h2, ih]

theorem dictInsert_map_fst_of_mem [DecidableEq K] (m : List (K × A)) (k : K)
    (v : A) (h : k ∈ m.map (·.1)) :
    (dictInsert m k v).map (·.1) = m.map (·.1) := by
  induction m with
  | nil => simp at h
  | cons kv rest ih =>
    by_cases h1 : kv.1 = k
    · simp [dictInsert, h1]
    · simp only [List.map_cons, List.mem_cons] at h
      rcases h with h | h
      · exact absurd h.symm h1
      · simp [dictInsert, h1, ih h]

theorem lookupKey_eq_some_of_mem [DecidableEq K] {m : List (K × A)}
    (hnd : (m.map (·.1)).Nodup) {kv : K × A} (h : kv ∈ m) :
    lookupKey kv.1 m = some kv.2 := by
  induction m with
  | nil => simp at h
  | cons kv' rest ih =>
    simp only [List.map_cons, List.nodup_cons] at hnd
    rcases List.mem_cons.mp h with h | h
    · subst h
      simp [lookupKey]
    · by_cases h1 : kv'.1 = kv.1
      · exact absurd (h1 ▸ List.mem_map_of_mem (·.1) h) hnd.1
      · simp [lookupKey, h1, ih hnd.2 h]

theorem lookupKey_mem [DecidableEq K] {m : List (K × A)} {k : K} {v : A}
    (h : lookupKey k m = some v) : (k, v) ∈ m := by
  induction m with
  | nil => simp [lookupKey] at h
  | cons kv rest ih =>
    by_cases h1 : kv.1 = k
    · simp only [lookupKey, if_pos h1] at h
      cases h
      have hkv : (k, kv.2) = kv := by
        obtain ⟨k1, v1⟩ := kv
        simp_all
      rw [hkv]
      exact List.mem_cons_self _ _
    · simp only [lookupKey, if_neg h1] at h
      exact List.mem_cons_of_mem _ (ih h)

theorem lookupKey_isSome_of_mem_keys [DecidableEq K] {m : List (K × A)} {k : K}
    (h : k ∈ m.map (·.1)) : ∃ v, lookupKey k m = some v := by
  induction m with
  | nil => simp at h
  | cons kv rest ih =>
    by_cases h1 : kv.1 = k
    · exact ⟨kv.2, by simp [lookupKey, h1]⟩
    · simp only [List.map_cons, List.mem_cons] at h
      rcases h with h | h
      · exact absurd h.symm h1
      · simpa [lookupKey, h1] using ih h

end GenSpeakerTrials

namespace GenSpeakerTrials

/-! ### Aggregator: `__call__` and `get_gender_mapping` -/

theorem mem_keys_of_lookupKey [DecidableEq K] {m : List (K × A)} {k : K} {v : A}
    (h : lookupKey k m = some v) : k ∈ m.map (·.1) :=
  List.mem_map_of_mem (·.1) (lookupKey_mem h)

theorem genderLoop_ok_iff :
    ∀ (l : List String), l.Nodup → ∀ (m : List (String × List String))
      (acc : List (String × String)),
      (∃ r, genderLoop l m acc = .ok r) ↔
        ∀ spk ∈ l, ∃ g, (lookupKey spk m).getD [] = [g] ∧ (g = "f" ∨ g = "m") := by
  intro l
  induction l with
  | nil =>
    intro _ m acc
    simp [genderLoop]
  | cons spk rest ih =>
    intro hnd m acc
    rcases List.nodup_cons.mp hnd with ⟨hspk, hrest⟩
    rcases hset : (lookupKey spk m).getD [] with _ | ⟨g, _ | ⟨g2, gs⟩⟩
    · simp only [genderLoop, hset]
      constructor
      · rintro ⟨r, hr⟩
        simp at hr
      · intro hall
        rcases hall spk (List.mem_cons_self _ _) with ⟨g, hg, _⟩
        rw [hset] at hg
        cases hg
    · simp only [genderLoop, hset]
      by_cases hrec : g = "f" ∨ g = "m"
      · simp only [if_pos hrec]
        rw [ih hrest (dictInsert m spk []) (acc ++ [(spk, g)])]
        constructor
        · intro hall s hs
          rcases List.mem_cons.mp hs with rfl | hs
          · exact ⟨g, hset, hrec⟩
          · have hne : s ≠ spk := fun h => hspk (h ▸ hs)
            rcases hall s hs with ⟨g', hg', hrec'⟩
            rw [lookupKey_dictInsert_ne m [] hne] at hg'
            exact ⟨g', hg', hrec'⟩
        · intro hall s hs
          have hne : s ≠ spk := fun h => hspk (h ▸ hs)
          rcases hall s (List.mem_cons_of_mem _ hs) with ⟨g', hg', hrec'⟩
          rw [lookupKey_dictInsert_ne m [] hne]
          exact ⟨g', hg', hrec'⟩
      · simp only [if_neg hrec]
        constructor
        · rintro ⟨r, hr⟩
          simp at hr
        · intro hall
          rcases hall spk (List.mem_cons_self _ _) with ⟨g', hg', hrec'⟩
          rw [hset] at hg'
          cases hg'
          exact absurd hrec' hrec
    · simp only [genderLoop, hset]
      constructor
      · rintro ⟨r, hr⟩
        simp at hr
      · intro hall
        rcases hall spk (List.mem_cons_self _ _) with ⟨g', hg', _⟩
        rw [hset] at hg'
        cases hg'

theorem genderLoop_ok_shape :
    ∀ (l : List String), l.Nodup → ∀ (m : List (String × List String))
      (acc : List (String × String)) (mp : List (String × String))
      (gm : List (String × List String)),
      genderLoop l m acc = .ok (mp, gm) →
      (∃ tail, mp = acc ++ tail ∧ tail.map (·.1) = l ∧
        ∀ kv ∈ tail, (lookupKey kv.1 m).getD [] = [kv.2]) ∧
      gm.map (·.1) = m.map (·.1) ∧
      (∀ spk ∈ l, lookupKey spk gm = some []) ∧
      (∀ spk, spk ∉ l → lookupKey spk gm = lookupKey spk m) := by
  intro l
  induction l with
  | nil =>
    intro _ m acc mp gm h
    simp only [genderLoop, Except.ok.injEq, Prod.mk.injEq] at h
    obtain ⟨h1, h2⟩ := h
    subst h1
    subst h2
    exact ⟨⟨[], by simp, rfl, by simp⟩, rfl, by simp, fun spk _ => rfl⟩
  | cons spk rest ih =>
    intro hnd m acc mp gm h
    rcases List.nodup_cons.mp hnd with ⟨hspk, hrest⟩
    rcases hset : (lookupKey spk m).getD [] with _ | ⟨g, _ | ⟨g2, gs⟩⟩
    · simp [genderLoop, hset] at h
    · by_cases hrec : g = "f" ∨ g = "m"
      · simp only [genderLoop, hset, if_pos hrec] at h
        have hmem : spk ∈ m.map (·.1) := by
          have : lookupKey spk m = some [g] := by
            rcases hlk : lookupKey spk m with _ | v
            · rw [hlk] at hset
              cases hset
            · rw [hlk] at hset
              simp only [Option.getD_some] at hset
              rw [hset]
          exact mem_keys_of_lookupKey this
        rcases ih hrest (dictInsert m spk []) (acc ++ [(spk, g)]) mp gm h with
          ⟨⟨tail, htl1, htl2, htl3⟩, hkeys, hin, hout⟩
        refine ⟨⟨(spk, g) :: tail, by simpa using htl1, by simpa using htl2, ?_⟩,
          ?_, ?_, ?_⟩
        · intro kv hkv
          rcases List.mem_cons.mp hkv with rfl | hkv
          · exact hset
          · have hkvmem : kv.1 ∈ rest := htl2 ▸ List.mem_map_of_mem (·.1) hkv
            have hne : kv.1 ≠ spk := fun hh => hspk (hh ▸ hkvmem)
            rw [← lookupKey_dictInsert_ne m ([] : List String) hne]
            exact htl3 kv hkv
        · rw [hkeys, dictInsert_map_fst_of_mem m spk [] hmem]
        · intro s hs
          rcases List.mem_cons.mp hs with rfl | hs
          · rw [hout s hspk, lookupKey_dictInsert_self]
          · exact hin s hs
        · intro s hs
          have hs1 : s ≠ spk := fun hh => hs (hh ▸ List.mem_cons_self _ _)
          have hs2 : s ∉ rest := fun hh => hs (List.mem_cons_of_mem _ hh)
          rw [hout s hs2, lookupKey_dictInsert_ne m ([] : List String) hs1]
      · simp [genderLoop, hset, hrec] at h
    · simp [genderLoop, hset] at h

theorem badGenderSet_iff (s : List String) :
    (¬ ∃ g, s = [g] ∧ (g = "f" ∨ g = "m")) ↔
      (s.length ≠ 1 ∨ ∃ g ∈ s, g ≠ "f" ∧ g ≠ "m") := by
  rcases s with _ | ⟨g, _ | ⟨g2, gs⟩⟩
  · simp
  · constructor
    · intro hbad
      refine Or.inr ⟨g, List.mem_singleton_self g, ?_, ?_⟩
      · intro hf
        exact hbad ⟨g, rfl, Or.inl hf⟩
      · intro hm
        exact hbad ⟨g, rfl, Or.inr hm⟩
    · rintro (h1 | ⟨g', hg', h2, h3⟩)
      · exact absurd rfl h1
      · rw [List.mem_singleton] at hg'
        subst hg'
        rintro ⟨g'', heq, hrec⟩
        rw [List.cons.injEq] at heq
        rcases heq with ⟨rfl, -⟩
        rcases hrec with rfl | rfl
        · exact absurd rfl h2
        · exact absurd rfl h3
  · constructor
    · intro _
      exact Or.inl (by simp)
    · intro _
      rintro ⟨g', heq, _⟩
      simp at heq

theorem get_gender_mapping_error_iff (sortKey : String → Nat)
    (a : WavAudioDataSampleTrialAggregator)
    (hnd : (a.map_speaker_id_to_gender.map (·.1)).Nodup) :
    (∃ e, get_gender_mapping sortKey a = .error e) ↔
      ∃ kv ∈ a.map_speaker_id_to_gender,
        ¬ ∃ g, kv.2 = [g] ∧ (g = "f" ∨ g = "m") := by
  have hiff := genderLoop_ok_iff
    (sortKeys (fun k1 k2 => decide (sortKey k1 ≤ sortKey k2))
      (a.map_speaker_id_to_gender.map (·.1)))
    (sortKeys_nodup _ hnd) a.map_speaker_id_to_gender []
  have hmemiff : ∀ spk,
      (spk ∈ sortKeys (fun k1 k2 => decide (sortKey k1 ≤ sortKey k2))
        (a.map_speaker_id_to_gender.map (·.1))) ↔
      spk ∈ a.map_speaker_id_to_gender.map (·.1) := fun spk => mem_sortKeys _ _ spk
  constructor
  · rintro ⟨e, he⟩
    by_contra hgood
    push_neg at hgood
    have hall : ∀ spk ∈ sortKeys (fun k1 k2 => decide (sortKey k1 ≤ sortKey k2))
        (a.map_speaker_id_to_gender.map (·.1)),
        ∃ g, (lookupKey spk a.map_speaker_id_to_gender).getD [] = [g] ∧
          (g = "f" ∨ g = "m") := by
      intro spk hspk
      rcases List.mem_map.mp ((hmemiff spk).mp hspk) with ⟨kv, hkv, rfl⟩
      rcases hgood kv hkv with ⟨g, hg, hrec⟩
      exact ⟨g, by rw [lookupKey_eq_some_of_mem hnd hkv, Option.getD_some, hg], hrec⟩
    rcases hiff.mpr hall with ⟨r, hr⟩
    rw [get_gender_mapping] at he
    rcases r with ⟨mres, gmres⟩
    rw [hr] at he
    cases he
  · rintro ⟨kv, hkv, hbad⟩
    rcases hres : get_gender_mapping sortKey a with e | r
    · exact ⟨e, rfl⟩
    · exfalso
      rw [get_gender_mapping] at hres
      rcases hloop : genderLoop
          (sortKeys (fun k1 k2 => decide (sortKey k1 ≤ sortKey k2))
            (a.map_speaker_id_to_gender.map (·.1)))
          a.map_speaker_id_to_gender [] with e' | r'
      · rw [hloop] at hres
        cases hres
      · rcases hiff.mp ⟨r', hloop⟩ kv.1
          ((hmemiff kv.1).mpr (List.mem_map_of_mem (·.1) hkv)) with ⟨g, hg, hrec⟩
        rw [lookupKey_eq_some_of_mem hnd hkv, Option.getD_some] at hg
        exact hbad ⟨g, hg, hrec⟩

end GenSpeakerTrials

namespace GenSpeakerTrials

/-! ### Claims C7, C8, C10 (aggregator) and C9 (zero limit) -/

/-- C7: `observe` (`WavAudioDataSampleTrialAggregator.__call__`) fails exactly
when the sample's id was already observed, its `speaker_id` is absent, or its
`gender` is absent; when none of these hold it succeeds, recording the sample
id, its sample→speaker mapping, and the observed gender for that speaker. -/
theorem aggregatorCall_spec (a : WavAudioDataSampleTrialAggregator)
    (x : WavAudioDataSample) :
    ((∃ e, aggregatorCall a x = .error e) ↔
      x.key ∈ a.sample_ids ∨ x.speaker_id = none ∨ x.gender = none) ∧
    (∀ spk g, x.speaker_id = some spk → x.gender = some g →
      x.key ∉ a.sample_ids →
      aggregatorCall a x = .ok
        { speaker_ids := setAdd a.speaker_ids spk
          sample_ids := setAdd a.sample_ids x.key
          map_sample_id_to_speaker_id :=
            dictInsert a.map_sample_id_to_speaker_id x.key spk
          map_speaker_id_to_gender :=
            dictInsert a.map_speaker_id_to_gender spk
              (setAdd ((lookupKey spk a.map_speaker_id_to_gender).getD [])
                g) }) := by
  constructor
  · constructor
    · rintro ⟨e, he⟩
      by_cases h1 : x.key ∈ a.sample_ids
      · exact Or.inl h1
      · rcases hs : x.speaker_id with _ | spk
        · exact Or.inr (Or.inl rfl)
        · rcases hg : x.gender with _ | g
          · exact Or.inr (Or.inr rfl)
          · simp [aggregatorCall, h1, hs, hg] at he
    · intro h
      rcases h with h | h | h
      · exact ⟨"non-unique sample_id", by simp [aggregatorCall, h]⟩
      · by_cases h1 : x.key ∈ a.sample_ids
        · exact ⟨"non-unique sample_id", by simp [aggregatorCall, h1]⟩
        · exact ⟨"missing speaker_id label", by simp [aggregatorCall, h1, h]⟩
      · by_cases h1 : x.key ∈ a.sample_ids
        · exact ⟨"non-unique sample_id", by simp [aggregatorCall, h1]⟩
        · rcases hs : x.speaker_id with _ | spk
          · exact ⟨"missing speaker_id label", by simp [aggregatorCall, h1, hs]⟩
          · exact ⟨"missing gender label", by simp [aggregatorCall, h1, hs, h]⟩
  · intro spk g hs hg h1
    simp [aggregatorCall, h1, hs, hg]

/-- Witness for C7: a fresh, fully labeled sample is recorded. -/
theorem aggregatorCall_spec_witness :
    aggregatorCall ⟨[], [], [], []⟩ ⟨"u", some "s", some "f"⟩ =
      .ok { speaker_ids := setAdd [] "s"
            sample_ids := setAdd [] "u"
            map_sample_id_to_speaker_id := dictInsert [] "u" "s"
            map_speaker_id_to_gender :=
              dictInsert [] "s"
                (setAdd ((lookupKey "s"
                  ([] : List (String × List String))).getD []) "f") } :=
  (aggregatorCall_spec ⟨[], [], [], []⟩ ⟨"u", some "s", some "f"⟩).2 "s" "f"
    rfl rfl (by decide)

/-- C8: the first call to `get_gender_mapping` fails when some observed
speaker's gender set does not contain exactly one value, fails when some
observed gender value is not one of the two recognized values `"f"`, `"m"`,
and otherwise returns a mapping that assigns to every observed speaker its
unique gender. -/
theorem get_gender_mapping_spec (sortKey : String → Nat)
    (a : WavAudioDataSampleTrialAggregator)
    (hnd : (a.map_speaker_id_to_gender.map (·.1)).Nodup) :
    ((∃ e, get_gender_mapping sortKey a = .error e) ↔
      (∃ kv ∈ a.map_speaker_id_to_gender, kv.2.length ≠ 1) ∨
      (∃ kv ∈ a.map_speaker_id_to_gender, ∃ g ∈ kv.2, g ≠ "f" ∧ g ≠ "m")) ∧
    (∀ mp a', get_gender_mapping sortKey a = .ok (mp, a') →
      ∀ kv ∈ a.map_speaker_id_to_gender,
        ∃ g, kv.2 = [g] ∧ (g = "f" ∨ g = "m") ∧ lookupKey kv.1 mp = some g) := by
  constructor
  · rw [get_gender_mapping_error_iff sortKey a hnd]
    constructor
    · rintro ⟨kv, hkv, hbad⟩
      rcases (badGenderSet_iff kv.2).mp hbad with h | h
      · exact Or.inl ⟨kv, hkv, h⟩
      · exact Or.inr ⟨kv, hkv, h⟩
    · rintro (⟨kv, hkv, h⟩ | ⟨kv, hkv, h⟩)
      · exact ⟨kv, hkv, (badGenderSet_iff kv.2).mpr (Or.inl h)⟩
      · exact ⟨kv, hkv, (badGenderSet_iff kv.2).mpr (Or.inr h)⟩
  · intro mp a' hok kv hkv
    rw [get_gender_mapping] at hok
    rcases hloop : genderLoop
        (sortKeys (fun k1 k2 => decide (sortKey k1 ≤ sortKey k2))
          (a.map_speaker_id_to_gender.map (·.1)))
        a.map_speaker_id_to_gender [] with e | ⟨mres, gmres⟩
    · rw [hloop] at hok
      cases hok
    · rw [hloop] at hok
      simp only [Except.ok.injEq, Prod.mk.injEq] at hok
      obtain ⟨rfl, -⟩ := hok
      have hndl := sortKeys_nodup (fun k1 k2 => decide (sortKey k1 ≤ sortKey k2)) hnd
      rcases genderLoop_ok_shape _ hndl _ _ _ _ hloop with
        ⟨⟨tail, htail, htl2, htl3⟩, -, -, -⟩
      have hgood := (genderLoop_ok_iff _ hndl a.map_speaker_id_to_gender []).mp
        ⟨_, hloop⟩
      have hk1 : kv.1 ∈ sortKeys (fun k1 k2 => decide (sortKey k1 ≤ sortKey k2))
          (a.map_speaker_id_to_gender.map (·.1)) :=
        (mem_sortKeys _ _ kv.1).mpr (List.mem_map_of_mem (·.1) hkv)
      rcases hgood kv.1 hk1 with ⟨g, hg, hrec⟩
      rw [lookupKey_eq_some_of_mem hnd hkv, Option.getD_some] at hg
      refine ⟨g, hg, hrec, ?_⟩
      have hmemtl : kv.1 ∈ tail.map (·.1) := htl2 ▸ hk1
      rcases List.mem_map.mp hmemtl with ⟨kv', hkv', hfst⟩
      have htlnd : (tail.map (·.1)).Nodup := htl2 ▸ hndl
      have hv' := htl3 kv' hkv'
      rw [hfst, lookupKey_eq_some_of_mem hnd hkv, Option.getD_some, hg] at hv'
      have : kv'.2 = g := by
        rw [List.cons.injEq] at hv'
        exact hv'.1.symm
      rw [htail, List.nil_append, ← hfst, lookupKey_eq_some_of_mem htlnd hkv', this]

/-- Witness for C8: a single speaker with the single observed gender `"f"`. -/
theorem get_gender_mapping_spec_witness :
    ∃ g, (("s", ["f"]) : String × List String).2 = [g] ∧ (g = "f" ∨ g = "m") ∧
      lookupKey (("s", ["f"]) : String × List String).1 [("s", "f")] = some g :=
  (get_gender_mapping_spec (fun _ => 0) ⟨["s"], ["u"], [("u", "s")], [("s", ["f"])]⟩
      (by decide)).2
    [("s", "f")] ⟨["s"], ["u"], [("u", "s")], [("s", [])]⟩ rfl
    ("s", ["f"]) (by decide)

/-- C10: after a successful first `get_gender_mapping` on a state with at least
one observed speaker, every per-speaker gender set has been emptied by
`set.pop`, so a second call (with any iteration key) fails. -/
theorem get_gender_mapping_second_call (sortKey1 sortKey2 : String → Nat)
    (a : WavAudioDataSampleTrialAggregator)
    (hnd : (a.map_speaker_id_to_gender.map (·.1)).Nodup)
    (hne : a.map_speaker_id_to_gender ≠ []) (mp : List (String × String))
    (a' : WavAudioDataSampleTrialAggregator)
    (h : get_gender_mapping sortKey1 a = .ok (mp, a')) :
    ∃ e, get_gender_mapping sortKey2 a' = .error e := by
  rw [get_gender_mapping] at h
  rcases hloop : genderLoop
      (sortKeys (fun k1 k2 => decide (sortKey1 k1 ≤ sortKey1 k2))
        (a.map_speaker_id_to_gender.map (·.1)))
      a.map_speaker_id_to_gender [] with e | ⟨mres, gmres⟩
  · rw [hloop] at h
    cases h
  · rw [hloop] at h
    simp only [Except.ok.injEq, Prod.mk.injEq] at h
    obtain ⟨-, ha'⟩ := h
    have hndl := sortKeys_nodup (fun k1 k2 => decide (sortKey1 k1 ≤ sortKey1 k2)) hnd
    rcases genderLoop_ok_shape _ hndl _ _ _ _ hloop with
      ⟨-, hkeys, hin, -⟩
    have ha'gm : a'.map_speaker_id_to_gender = gmres := by
      rw [← ha']
    have hnd' : (a'.map_speaker_id_to_gender.map (·.1)).Nodup := by
      rw [ha'gm, hkeys]
      exact hnd
    rw [get_gender_mapping_error_iff sortKey2 a' hnd']
    rcases hgm : gmres with _ | ⟨kv0, rest⟩
    · exfalso
      apply hne
      have : a.map_speaker_id_to_gender.map (·.1) = [] := by
        rw [← hkeys, hgm]
        rfl
      exact List.map_eq_nil_iff.mp this
    · refine ⟨kv0, by rw [ha'gm, hgm]; exact List.mem_cons_self _ _, ?_⟩
      have hmem0 : kv0 ∈ gmres := by
        rw [hgm]
        exact List.mem_cons_self _ _
      have hk0 : kv0.1 ∈ sortKeys (fun k1 k2 => decide (sortKey1 k1 ≤ sortKey1 k2))
          (a.map_speaker_id_to_gender.map (·.1)) := by
        apply (mem_sortKeys _ _ kv0.1).mpr
        rw [← hkeys]
        exact List.mem_map_of_mem (·.1) hmem0
      have hlk := hin kv0.1 hk0
      have hndgm : (gmres.map (·.1)).Nodup := by
        rw [hkeys]
        exact hnd
      rw [lookupKey_eq_some_of_mem hndgm hmem0] at hlk
      have : kv0.2 = [] := by
        rw [Option.some.injEq] at hlk
        exact hlk
      rw [this]
      rintro ⟨g, hg, -⟩
      cases hg

/-- Witness for C10: the single-speaker state above, after its first call. -/
theorem get_gender_mapping_second_call_witness :
    ∃ e, get_gender_mapping (fun _ => 0)
      ⟨["s"], ["u"], [("u", "s")], [("s", [])]⟩ = .error e :=
  get_gender_mapping_second_call (fun _ => 0) (fun _ => 0)
    ⟨["s"], ["u"], [("u", "s")], [("s", ["f"])]⟩ (by decide) (by decide)
    [("s", "f")] ⟨["s"], ["u"], [("u", "s")], [("s", [])]⟩ rfl

theorem rrLoop_limit_zero [DecidableEq K] (le : K → K → Bool) (fuel : Nat)
    (gens : GenDict K) (queue : List K) :
    rrLoop le fuel gens queue [] (some 0) = .ok [] := by
  cases fuel <;> simp [rrLoop, continueLoop]

theorem exhaust_limit_zero [DecidableEq K] (le : K → K → Bool)
    (gens : GenDict K) :
    exhaust_pairs_iterator_dictionary le gens (some 0) = .ok [] :=
  rrLoop_limit_zero le _ gens _

/-- C9: with `limit_num_trials = 0` the scheduler's guard is false at entry, so
it returns an empty pair list without pulling from any generator; hence, for
every input, both the positive and the negative pass contribute no trials and
the final trial list is empty. -/
theorem limit_zero_spec :
    (∀ (K : Type) [DecidableEq K] (le : K → K → Bool) (gens : GenDict K),
      exhaust_pairs_iterator_dictionary le gens (some 0) = .ok []) ∧
    (∀ (samples : List String) (mapS gmap : String → String) (ess : Bool),
      generate_speaker_trials samples mapS gmap ess (some 0) = some []) := by
  constructor
  · intro K instK le gens
    exact exhaust_limit_zero le gens
  · intro samples mapS gmap ess
    rw [generate_speaker_trials, positive_pairs, negative_pairs]
    rw [exhaust_limit_zero, exhaust_limit_zero]
    simp [sortKeys]

end GenSpeakerTrials

namespace GenSpeakerTrials

/-! ### Scheduler infrastructure: measures, ghost representation, consumed pairs -/

theorem lookupKey_eq_none_iff [DecidableEq K] (m : List (K × A)) (k : K) :
    lookupKey k m = none ↔ k ∉ m.map (·.1) := by
  induction m with
  | nil => simp [lookupKey]
  | cons kv rest ih =>
    by_cases h : kv.1 = k
    · simp [lookupKey, h]
    · simp [lookupKey, h, ih, Ne.symm h]

theorem removeKey_length [DecidableEq K] {m : List (K × A)} {k : K} {v : A}
    (h : lookupKey k m = some v) : (removeKey k m).length + 1 = m.length := by
  induction m with
  | nil => simp [lookupKey] at h
  | cons kv rest ih =>
    by_cases h1 : kv.1 = k
    · simp [removeKey, h1]
    · simp only [lookupKey, if_neg h1] at h
      simp [removeKey, h1, ih h]

theorem removeKey_sum [DecidableEq K] {m : List (K × List B)} {k : K}
    {v : List B} (h : lookupKey k m = some v) :
    ((removeKey k m).map (fun kv => kv.2.length)).sum + v.length =
      (m.map (fun kv => kv.2.length)).sum := by
  induction m with
  | nil => simp [lookupKey] at h
  | cons kv rest ih =>
    by_cases h1 : kv.1 = k
    · simp only [lookupKey, if_pos h1, Option.some.injEq] at h
      subst h
      simp [removeKey, h1, Nat.add_comm]
    · simp only [lookupKey, if_neg h1] at h
      have := ih h
      simp only [removeKey, if_neg h1, List.map_cons, List.sum_cons]
      omega

theorem updateKey_length [DecidableEq K] (m : List (K × A)) (k : K) (v : A) :
    (updateKey k v m).length = m.length := by
  induction m with
  | nil => rfl
  | cons kv rest ih =>
    by_cases h1 : kv.1 = k
    · simp [updateKey, h1]
    · simp [updateKey, h1, ih]

theorem updateKey_sum [DecidableEq K] {m : List (K × List B)} {k : K}
    {v : List B} (h : lookupKey k m = some v) (w : List B) :
    ((updateKey k w m).map (fun kv => kv.2.length)).sum + v.length =
      (m.map (fun kv => kv.2.length)).sum + w.length := by
  induction m with
  | nil => simp [lookupKey] at h
  | cons kv rest ih =>
    by_cases h1 : kv.1 = k
    · simp only [lookupKey, if_pos h1, Option.some.injEq] at h
      subst h
      simp only [updateKey, if_pos h1, List.map_cons, List.sum_cons]
      omega
    · simp only [lookupKey, if_neg h1] at h
      have := ih h
      simp only [updateKey, if_neg h1, List.map_cons, List.sum_cons]
      omega

theorem flatMap_sublist {l : List A} {f g : A → List B}
    (h : ∀ x ∈ l, (f x).Sublist (g x)) :
    (l.flatMap f).Sublist (l.flatMap g) := by
  induction l with
  | nil => simp
  | cons x xs ih =>
    simp only [List.flatMap_cons]
    exact (h x (List.mem_cons_self _ _)).append
      (ih (fun y hy => h y (List.mem_cons_of_mem _ hy)))

/-- All pairs the generator dictionary can still yield, canonicalized. -/
def allCanon (G : GenDict K) : List RawPair :=
  G.flatMap (fun kv => kv.2.map canonPair)

/-- The canonicalized pairs already yielded when each group `k` has produced the
first `t k` pairs of its generator. -/
def consumedCanon (G : GenDict K) (t : K → Nat) : List RawPair :=
  G.flatMap (fun kv => (kv.2.take (t kv.1)).map canonPair)

theorem consumedCanon_zero (G : GenDict K) : consumedCanon G (fun _ => 0) = [] := by
  induction G with
  | nil => rfl
  | cons kv tl ih =>
    simp only [consumedCanon, List.flatMap_cons, List.take_zero, List.map_nil,
      List.nil_append]
    exact ih

theorem consumedCanon_congr {G : GenDict K} {t t' : K → Nat}
    (h : ∀ kv ∈ G, t kv.1 = t' kv.1) : consumedCanon G t = consumedCanon G t' := by
  induction G with
  | nil => rfl
  | cons kv tl ih =>
    simp only [consumedCanon, List.flatMap_cons]
    rw [h kv (List.mem_cons_self _ _)]
    have := ih (fun kv' hkv' => h kv' (List.mem_cons_of_mem _ hkv'))
    simp only [consumedCanon] at this
    rw [this]

theorem consumedCanon_full {G : GenDict K} {t : K → Nat}
    (h : ∀ kv ∈ G, t kv.1 = kv.2.length) : consumedCanon G t = allCanon G := by
  induction G with
  | nil => rfl
  | cons kv tl ih =>
    simp only [consumedCanon, allCanon, List.flatMap_cons]
    rw [h kv (List.mem_cons_self _ _), List.take_length]
    have := ih (fun kv' hkv' => h kv' (List.mem_cons_of_mem _ hkv'))
    simp only [consumedCanon, allCanon] at this
    rw [this]

theorem consumedCanon_sublist (G : GenDict K) (t : K → Nat) :
    (consumedCanon G t).Sublist (allCanon G) :=
  flatMap_sublist (fun kv _ => (List.take_sublist _ _).map canonPair)

theorem consumedCanon_length {G : GenDict K} {t : K → Nat}
    (h : ∀ kv ∈ G, t kv.1 ≤ kv.2.length) :
    (consumedCanon G t).length = (G.map (fun kv => t kv.1)).sum := by
  induction G with
  | nil => rfl
  | cons kv tl ih =>
    simp only [consumedCanon, List.flatMap_cons, List.length_append,
      List.length_map, List.length_take, List.map_cons, List.sum_cons]
    have h1 := h kv (List.mem_cons_self _ _)
    have := ih (fun kv' hkv' => h kv' (List.mem_cons_of_mem _ hkv'))
    simp only [consumedCanon] at this
    rw [this]
    omega

theorem allCanon_length (G : GenDict K) :
    (allCanon G).length = (G.map (fun kv => kv.2.length)).sum := by
  induction G with
  | nil => rfl
  | cons kv tl ih =>
    simp only [allCanon, List.flatMap_cons, List.length_append, List.length_map,
      List.map_cons, List.sum_cons]
    simp only [allCanon] at ih
    rw [ih]

theorem mem_allCanon_of_mem {G : GenDict K} {kv : K × List RawPair}
    {c : RawPair} (hkv : kv ∈ G) (hc : c ∈ kv.2.map canonPair) :
    c ∈ allCanon G :=
  List.mem_flatMap.mpr ⟨kv, hkv, hc⟩

end GenSpeakerTrials

namespace GenSpeakerTrials

/-- Ghost representation of the scheduler's dictionary: the original dictionary
`G` restricted to the still-live keys `act`, each generator advanced past its
first `t k` yields. -/
def restrictGens [DecidableEq K] (G : GenDict K) (act : List K) (t : K → Nat) :
    GenDict K :=
  match G with
  | [] => []
  | kv :: tl =>
    if kv.1 ∈ act then (kv.1, kv.2.drop (t kv.1)) :: restrictGens tl act t
    else restrictGens tl act t

theorem mem_restrictGens_keys [DecidableEq K] {G : GenDict K} {act : List K}
    {t : K → Nat} (k : K) :
    k ∈ (restrictGens G act t).map (·.1) ↔ k ∈ G.map (·.1) ∧ k ∈ act := by
  induction G with
  | nil => simp [restrictGens]
  | cons kv tl ih =>
    by_cases h : kv.1 ∈ act
    · simp only [restrictGens, if_pos h, List.map_cons, List.mem_cons, ih]
      constructor
      · rintro (rfl | ⟨h1, h2⟩)
        · exact ⟨Or.inl rfl, h⟩
        · exact ⟨Or.inr h1, h2⟩
      · rintro ⟨rfl | h1, h2⟩
        · exact Or.inl rfl
        · exact Or.inr ⟨h1, h2⟩
    · simp only [restrictGens, if_neg h, List.map_cons, List.mem_cons, ih]
      constructor
      · rintro ⟨h1, h2⟩
        exact ⟨Or.inr h1, h2⟩
      · rintro ⟨rfl | h1, h2⟩
        · exact absurd h2 h
        · exact ⟨h1, h2⟩

theorem restrictGens_keys_nodup [DecidableEq K] {G : GenDict K} {act : List K}
    {t : K → Nat} (h : (G.map (·.1)).Nodup) :
    ((restrictGens G act t).map (·.1)).Nodup := by
  induction G with
  | nil => simp [restrictGens]
  | cons kv tl ih =>
    simp only [List.map_cons, List.nodup_cons] at h
    by_cases hm : kv.1 ∈ act
    · simp only [restrictGens, if_pos hm, List.map_cons, List.nodup_cons]
      exact ⟨fun hc => h.1 ((mem_restrictGens_keys kv.1).mp hc).1, ih h.2⟩
    · simp only [restrictGens, if_neg hm]
      exact ih h.2

theorem restrictGens_length [DecidableEq K] {G : GenDict K} {act : List K}
    {t : K → Nat} (hGnd : (G.map (·.1)).Nodup) (hand : act.Nodup)
    (hsub : ∀ k ∈ act, k ∈ G.map (·.1)) :
    (restrictGens G act t).length = act.length := by
  have hkeys : (restrictGens G act t).length =
      ((restrictGens G act t).map (·.1)).length := (List.length_map _ _).symm
  rw [hkeys]
  have hperm : ((restrictGens G act t).map (·.1)).Perm act := by
    apply (List.perm_ext_iff_of_nodup (restrictGens_keys_nodup hGnd) hand).mpr
    intro a
    rw [mem_restrictGens_keys]
    constructor
    · rintro ⟨-, h⟩
      exact h
    · intro h
      exact ⟨hsub a h, h⟩
  exact hperm.length_eq

theorem restrictGens_lookup [DecidableEq K] {G : GenDict K} {act : List K}
    {t : K → Nat} {k : K} {v : List RawPair} (hk : k ∈ act)
    (h : lookupKey k G = some v) :
    lookupKey k (restrictGens G act t) = some (v.drop (t k)) := by
  induction G with
  | nil => simp [lookupKey] at h
  | cons kv tl ih =>
    by_cases h1 : kv.1 = k
    · simp only [lookupKey, if_pos h1] at h
      rw [Option.some.injEq] at h
      subst h
      have hk' : kv.1 ∈ act := h1 ▸ hk
      simp [restrictGens, hk', lookupKey, h1, hk]
    · simp only [lookupKey, if_neg h1] at h
      by_cases h2 : kv.1 ∈ act
      · simp [restrictGens, h2, lookupKey, h1, ih h]
      · simp [restrictGens, h2, ih h]

theorem restrictGens_all [DecidableEq K] {G : GenDict K} {act : List K}
    (h : ∀ kv ∈ G, kv.1 ∈ act) : restrictGens G act (fun _ => 0) = G := by
  induction G with
  | nil => rfl
  | cons kv tl ih =>
    simp only [restrictGens, if_pos (h kv (List.mem_cons_self _ _)), List.drop_zero]
    rw [ih (fun kv' hkv' => h kv' (List.mem_cons_of_mem _ hkv'))]

theorem restrictGens_congr_t [DecidableEq K] {G : GenDict K} {act : List K}
    {t t' : K → Nat} (h : ∀ kv ∈ G, t kv.1 = t' kv.1) :
    restrictGens G act t = restrictGens G act t' := by
  induction G with
  | nil => rfl
  | cons kv tl ih =>
    have h1 := h kv (List.mem_cons_self _ _)
    have h2 := ih (fun kv' hkv' => h kv' (List.mem_cons_of_mem _ hkv'))
    by_cases hm : kv.1 ∈ act
    · simp only [restrictGens, if_pos hm, h1, h2]
    · simp only [restrictGens, if_neg hm, h2]

theorem restrictGens_erase_of_not_mem_keys [DecidableEq K] {G : GenDict K}
    {act : List K} {t : K → Nat} {key : K} (h : key ∉ G.map (·.1)) :
    restrictGens G (act.erase key) t = restrictGens G act t := by
  induction G with
  | nil => rfl
  | cons kv tl ih =>
    simp only [List.map_cons, List.mem_cons] at h
    push_neg at h
    have hne : kv.1 ≠ key := fun hh => h.1 hh.symm
    have h2 := ih h.2
    by_cases hm : kv.1 ∈ act
    · simp only [restrictGens, if_pos ((List.mem_erase_of_ne hne).mpr hm),
        if_pos hm, h2]
    · have hh : kv.1 ∉ act.erase key := fun hh => hm ((List.mem_erase_of_ne hne).mp hh)
      simp only [restrictGens, if_neg hh, if_neg hm, h2]

theorem removeKey_restrictGens [DecidableEq K] {G : GenDict K} {act : List K}
    {t : K → Nat} {key : K} (hGnd : (G.map (·.1)).Nodup) (hand : act.Nodup) :
    removeKey key (restrictGens G act t) = restrictGens G (act.erase key) t := by
  induction G with
  | nil => rfl
  | cons kv tl ih =>
    simp only [List.map_cons, List.nodup_cons] at hGnd
    have ih' := ih hGnd.2
    by_cases h2 : kv.1 ∈ act
    · by_cases h1 : kv.1 = key
      · have hkeyerase : kv.1 ∉ act.erase key := by
          rw [h1]
          exact hand.not_mem_erase
        simp only [restrictGens, if_pos h2, if_neg hkeyerase]
        simp only [removeKey, if_pos h1]
        exact (restrictGens_erase_of_not_mem_keys (h1 ▸ hGnd.1)).symm
      · have hmem : kv.1 ∈ act.erase key := (List.mem_erase_of_ne h1).mpr h2
        simp only [restrictGens, if_pos h2, if_pos hmem]
        simp only [removeKey, if_neg h1]
        rw [ih']
    · have hh : kv.1 ∉ act.erase key := fun hh => h2 (List.mem_of_mem_erase hh)
      simp only [restrictGens, if_neg h2, if_neg hh]
      exact ih'

theorem updateKey_restrictGens [DecidableEq K] {act : List K} {t : K → Nat}
    {key : K} {v : List RawPair} {p : RawPair} {rest0 : List RawPair}
    (hk : key ∈ act) (hd : v.drop (t key) = p :: rest0) :
    ∀ (G : GenDict K), (G.map (·.1)).Nodup → lookupKey key G = some v →
      updateKey key rest0 (restrictGens G act t) =
        restrictGens G act (fun j => if j = key then t key + 1 else t j) := by
  intro G
  induction G with
  | nil =>
    intro _ hlk
    simp [lookupKey] at hlk
  | cons kv tl ih =>
    intro hGnd hlk
    simp only [List.map_cons, List.nodup_cons] at hGnd
    obtain ⟨k1, v1⟩ := kv
    by_cases h1 : k1 = key
    · subst h1
      simp only [lookupKey, if_pos] at hlk
      rw [Option.some.injEq] at hlk
      subst hlk
      have hdrop : v1.drop (t k1 + 1) = rest0 := by
        have h3 := List.drop_drop 1 (t k1) v1
        rw [hd] at h3
        simpa using h3.symm
      have htl : restrictGens tl act t =
          restrictGens tl act (fun j => if j = k1 then t k1 + 1 else t j) := by
        apply restrictGens_congr_t
        intro kv' hkv'
        have hne : kv'.1 ≠ k1 := fun hh =>
          hGnd.1 (hh ▸ List.mem_map_of_mem (·.1) hkv')
        simp [hne]
      simp only [restrictGens, if_pos hk]
      simp [updateKey, hdrop, ← htl]
    · simp only [lookupKey, if_neg h1] at hlk
      by_cases hm : k1 ∈ act
      · simp only [restrictGens, if_pos hm]
        simp only [updateKey, if_neg h1]
        rw [ih hGnd.2 hlk]
      · simp only [restrictGens, if_neg hm]
        exact ih hGnd.2 hlk

theorem consumedCanon_succ_perm [DecidableEq K] {t : K → Nat} {key : K}
    {v : List RawPair} {p : RawPair} {rest0 : List RawPair}
    (hd : v.drop (t key) = p :: rest0) :
    ∀ (G : GenDict K), (G.map (·.1)).Nodup → lookupKey key G = some v →
      (consumedCanon G (fun j => if j = key then t key + 1 else t j)).Perm
        (consumedCanon G t ++ [canonPair p]) := by
  intro G
  induction G with
  | nil =>
    intro _ hlk
    simp [lookupKey] at hlk
  | cons kv tl ih =>
    intro hGnd hlk
    simp only [List.map_cons, List.nodup_cons] at hGnd
    obtain ⟨k1, v1⟩ := kv
    by_cases h1 : k1 = key
    · subst h1
      simp only [lookupKey, if_pos] at hlk
      rw [Option.some.injEq] at hlk
      subst hlk
      have hget : v1[t k1]? = some p := by
        have h3 := List.getElem?_drop v1 (t k1) 0
        rw [hd] at h3
        simpa using h3.symm
      have htake : v1.take (t k1 + 1) = v1.take (t k1) ++ [p] := by
        rw [List.take_succ, hget]
        rfl
      have htl : consumedCanon tl (fun j => if j = k1 then t k1 + 1 else t j) =
          consumedCanon tl t := by
        apply Eq.symm
        apply consumedCanon_congr
        intro kv' hkv'
        have hne : kv'.1 ≠ k1 := fun hh =>
          hGnd.1 (hh ▸ List.mem_map_of_mem (·.1) hkv')
        simp [hne]
      simp only [consumedCanon, List.flatMap_cons] at htl ⊢
      simp only [if_true]
      rw [htake, htl, List.map_append]
      rw [List.append_assoc, List.append_assoc]
      apply List.Perm.append_left
      exact List.perm_append_comm
    · simp only [lookupKey, if_neg h1] at hlk
      have ihp := ih hGnd.2 hlk
      simp only [consumedCanon, List.flatMap_cons] at ihp ⊢
      have hne : (if k1 = key then t key + 1 else t k1) = t k1 := by
        simp [h1]
      rw [hne, List.append_assoc]
      exact List.Perm.append_left _ ihp

theorem fresh_not_mem_consumedCanon [DecidableEq K] {t : K → Nat} {key : K}
    {v : List RawPair} {p : RawPair} {rest0 : List RawPair}
    (hd : v.drop (t key) = p :: rest0) :
    ∀ (G : GenDict K), (allCanon G).Nodup → lookupKey key G = some v →
      canonPair p ∉ consumedCanon G t := by
  intro G
  induction G with
  | nil =>
    intro _ hlk
    simp [lookupKey] at hlk
  | cons kv tl ih =>
    intro hH1 hlk
    obtain ⟨k1, v1⟩ := kv
    simp only [allCanon, List.flatMap_cons] at hH1
    have hndseg : (v1.map canonPair).Nodup := hH1.of_append_left
    have hndtl : (tl.flatMap (fun kv => kv.2.map canonPair)).Nodup :=
      hH1.of_append_right
    have hdisj := List.disjoint_of_nodup_append hH1
    intro hc
    simp only [consumedCanon, List.flatMap_cons, List.mem_append] at hc
    by_cases h1 : k1 = key
    · subst h1
      simp only [lookupKey, if_pos] at hlk
      rw [Option.some.injEq] at hlk
      subst hlk
      rcases hc with hc | hc
      · have hv1 : v1.map canonPair =
            (v1.take (t k1)).map canonPair ++
              canonPair p :: rest0.map canonPair := by
          conv_lhs => rw [← List.take_append_drop (t k1) v1]
          rw [List.map_append, hd, List.map_cons]
        rw [hv1] at hndseg
        exact (List.disjoint_of_nodup_append hndseg) hc (List.mem_cons_self _ _)
      · have hmem : canonPair p ∈ v1.map canonPair := by
          apply List.mem_map_of_mem
          have hp : p ∈ v1.drop (t k1) := by
            rw [hd]
            exact List.mem_cons_self _ _
          exact (List.drop_sublist _ _).subset hp
        have hmem2 : canonPair p ∈ allCanon tl :=
          (consumedCanon_sublist tl t).subset hc
        exact hdisj hmem hmem2
    · simp only [lookupKey, if_neg h1] at hlk
      rcases hc with hc | hc
      · have hinv : canonPair p ∈ allCanon tl := by
          apply mem_allCanon_of_mem (lookupKey_mem hlk)
          apply List.mem_map_of_mem
          have hp : p ∈ v.drop (t key) := by
            rw [hd]
            exact List.mem_cons_self _ _
          exact (List.drop_sublist _ _).subset hp
        have hseg : canonPair p ∈ v1.map canonPair := by
          rcases List.mem_map.mp hc with ⟨q, hq, hcq⟩
          exact List.mem_map.mpr ⟨q, (List.take_sublist _ _).subset hq, hcq⟩
        exact hdisj hseg hinv
      · exact ih hndtl hlk hc

end GenSpeakerTrials

namespace GenSpeakerTrials

theorem continueLoop_true {numGens numPairs : Nat} {limit : Option Nat}
    (h : continueLoop numGens numPairs limit = true) :
    0 < numGens ∧ ∀ n, limit = some n → numPairs < n := by
  cases limit with
  | none =>
    simp only [continueLoop, decide_eq_true_eq] at h
    exact ⟨h, fun n hn => by cases hn⟩
  | some n =>
    simp only [continueLoop, Bool.and_eq_true, decide_eq_true_eq] at h
    exact ⟨h.1, fun n' hn' => by cases hn'; exact h.2⟩

theorem continueLoop_false {numGens numPairs : Nat} {limit : Option Nat}
    (h : continueLoop numGens numPairs limit = false) :
    numGens = 0 ∨ ∃ n, limit = some n ∧ n ≤ numPairs := by
  cases limit with
  | none =>
    simp only [continueLoop, decide_eq_false_iff_not, Nat.not_lt,
      Nat.le_zero] at h
    exact Or.inl h
  | some n =>
    simp only [continueLoop, Bool.and_eq_false_iff, decide_eq_false_iff_not,
      Nat.not_lt, Nat.le_zero] at h
    rcases h with h | h
    · exact Or.inl h
    · exact Or.inr ⟨n, rfl, h⟩

/-- Invariant of the round-robin scheduling loop. `G` is the original generator
dictionary; `act` the still-live keys; `t k` the number of pairs group `k` has
yielded so far; `r` the number of completed scheduling rounds. Live groups that
are still queued this round have yielded `r` pairs, live groups already visited
this round `r + 1`; a deleted group has yielded its whole generator, which was
exhausted no later than round `r`. -/
structure RRInv [DecidableEq K] (G : GenDict K) (gens : GenDict K)
    (queue : List K) (pairs : List RawPair) (act : List K) (t : K → Nat)
    (r : Nat) (limit : Option Nat) : Prop where
  rep : gens = restrictGens G act t
  actSub : ∀ k ∈ act, k ∈ G.map (·.1)
  actNodup : act.Nodup
  queueNodup : queue.Nodup
  queueSub : ∀ k ∈ queue, k ∈ act
  tQueue : ∀ k ∈ act, k ∈ queue → t k = r
  tAct : ∀ k ∈ act, k ∉ queue → t k = r + 1
  tDead : ∀ kv ∈ G, kv.1 ∉ act → t kv.1 = kv.2.length ∧ kv.2.length ≤ r
  tLe : ∀ kv ∈ G, t kv.1 ≤ kv.2.length
  pairsPerm : pairs.Perm (consumedCanon G t)
  pairsBound : ∀ n, limit = some n → pairs.length ≤ n

/-- At a state where the loop guard fails, the invariant yields the final
characterization of the collected pairs. -/
theorem rrInv_terminal [DecidableEq K] {G gens : GenDict K} {queue : List K}
    {pairs : List RawPair} {act : List K} {t : K → Nat} {r : Nat}
    {limit : Option Nat} (hGnd : (G.map (·.1)).Nodup)
    (inv : RRInv G gens queue pairs act t r limit)
    (hstop : continueLoop gens.length pairs.length limit = false) :
    pairs.Perm (consumedCanon G t) ∧
    (∀ kv ∈ G, t kv.1 ≤ kv.2.length) ∧
    (∀ kv1 ∈ G, ∀ kv2 ∈ G, t kv1.1 + 1 < t kv2.1 → t kv1.1 = kv1.2.length) ∧
    (limit = none → ∀ kv ∈ G, t kv.1 = kv.2.length) ∧
    (∀ n, limit = some n → pairs.length ≤ n ∧
      (pairs.length < n → ∀ kv ∈ G, t kv.1 = kv.2.length)) := by
  have hbound : ∀ kv ∈ G, t kv.1 ≤ r + 1 := by
    intro kv hkv
    by_cases hact : kv.1 ∈ act
    · by_cases hq : kv.1 ∈ queue
      · rw [inv.tQueue kv.1 hact hq]
        omega
      · rw [inv.tAct kv.1 hact hq]
    · have := inv.tDead kv hkv hact
      omega
  have hexhausted : gens.length = 0 → ∀ kv ∈ G, t kv.1 = kv.2.length := by
    intro hg kv hkv
    have hact0 : act.length = 0 := by
      rw [inv.rep, restrictGens_length hGnd inv.actNodup inv.actSub] at hg
      exact hg
    have : kv.1 ∉ act := fun hmem =>
      (List.ne_nil_of_mem hmem) (List.length_eq_zero.mp hact0)
    exact (inv.tDead kv hkv this).1
  refine ⟨inv.pairsPerm, inv.tLe, ?_, ?_, ?_⟩
  · intro kv1 hkv1 kv2 hkv2 hlt
    have h2 := hbound kv2 hkv2
    have h1low : t kv1.1 < r := by omega
    have hdead : kv1.1 ∉ act := by
      intro hact
      by_cases hq : kv1.1 ∈ queue
      · rw [inv.tQueue kv1.1 hact hq] at h1low
        omega
      · rw [inv.tAct kv1.1 hact hq] at h1low
        omega
    exact (inv.tDead kv1 hkv1 hdead).1
  · intro hnone
    rcases continueLoop_false hstop with hg | ⟨n, hn, -⟩
    · exact hexhausted hg
    · rw [hnone] at hn
      cases hn
  · intro n hn
    refine ⟨inv.pairsBound n hn, ?_⟩
    intro hlt
    rcases continueLoop_false hstop with hg | ⟨n', hn', hle⟩
    · exact hexhausted hg
    · rw [hn] at hn'
      rw [Option.some.injEq] at hn'
      subst hn'
      omega

/-- Refilling the queue (when empty) preserves the invariant, bumping the round
counter; the refilled queue is nonempty whenever some generator is live. -/
theorem rrInv_refill [DecidableEq K] (le : K → K → Bool) {G gens : GenDict K}
    {queue : List K} {pairs : List RawPair} {act : List K} {t : K → Nat}
    {r : Nat} {limit : Option Nat} (hGnd : (G.map (·.1)).Nodup)
    (inv : RRInv G gens queue pairs act t r limit) :
    ∃ r1, RRInv G gens
      (if queue.isEmpty then sortKeys le (gens.map (·.1)) else queue)
      pairs act t r1 limit ∧
      (0 < gens.length →
        (if queue.isEmpty then sortKeys le (gens.map (·.1)) else queue) ≠ []) := by
  by_cases hq : queue.isEmpty
  · have hqempty : queue = [] := List.isEmpty_iff.mp hq
    refine ⟨r + 1, ?_, ?_⟩
    · rw [if_pos hq]
      have hkeysnd : (gens.map (·.1)).Nodup := by
        rw [inv.rep]
        exact restrictGens_keys_nodup hGnd
      refine ⟨inv.rep, inv.actSub, inv.actNodup, sortKeys_nodup le hkeysnd, ?_,
        ?_, ?_, ?_, inv.tLe, inv.pairsPerm, inv.pairsBound⟩
      · intro k hk
        have hkg : k ∈ gens.map (·.1) := (mem_sortKeys le _ k).mp hk
        rw [inv.rep] at hkg
        exact ((mem_restrictGens_keys k).mp hkg).2
      · intro k hk _
        apply inv.tAct k hk
        rw [hqempty]
        exact List.not_mem_nil k
      · intro k hk hknot
        exfalso
        apply hknot
        apply (mem_sortKeys le _ k).mpr
        rw [inv.rep]
        apply (mem_restrictGens_keys k).mpr
        exact ⟨inv.actSub k hk, hk⟩
      · intro kv hkv hdead
        have := inv.tDead kv hkv hdead
        omega
    · rw [if_pos hq]
      intro hglen hnil
      have hperm := sortKeys_perm le (gens.map (·.1))
      rw [hnil] at hperm
      have hkeysnil : gens.map (·.1) = [] := hperm.symm.eq_nil
      have hgnil : gens = [] := List.map_eq_nil_iff.mp hkeysnil
      rw [hgnil] at hglen
      simp at hglen
  · refine ⟨r, ?_, ?_⟩
    · rw [if_neg hq]
      exact inv
    · intro _
      rw [if_neg hq]
      intro hnil
      rw [List.isEmpty_iff] at hq
      exact hq hnil

end GenSpeakerTrials

namespace GenSpeakerTrials

/-- Main characterization of the round-robin loop, by induction on fuel along
the invariant `RRInv`: with enough fuel the loop terminates normally and
returns, up to permutation, the canonical pairs of a per-group consumption
profile `t'` that is fair (two groups' yields differ by more than one only when
the smaller one is fully exhausted), total when no limit is set, and of size
`n` when a limit `n` smaller than the total is set. -/
theorem rrLoop_run [DecidableEq K] (le : K → K → Bool) (G : GenDict K)
    (hGnd : (G.map (·.1)).Nodup) (hH1 : (allCanon G).Nodup)
    (limit : Option Nat) :
    ∀ (fuel : Nat) (gens : GenDict K) (queue : List K) (pairs : List RawPair)
      (act : List K) (t : K → Nat) (r : Nat),
      RRInv G gens queue pairs act t r limit →
      (gens.map (fun kv => kv.2.length)).sum + gens.length ≤ fuel →
      ∃ (t' : K → Nat) (L : List RawPair),
        rrLoop le fuel gens queue pairs limit = .ok L ∧
        L.Perm (consumedCanon G t') ∧
        (∀ kv ∈ G, t' kv.1 ≤ kv.2.length) ∧
        (∀ kv1 ∈ G, ∀ kv2 ∈ G, t' kv1.1 + 1 < t' kv2.1 →
          t' kv1.1 = kv1.2.length) ∧
        (limit = none → ∀ kv ∈ G, t' kv.1 = kv.2.length) ∧
        (∀ n, limit = some n → L.length ≤ n ∧
          (L.length < n → ∀ kv ∈ G, t' kv.1 = kv.2.length)) := by
  intro fuel
  induction fuel with
  | zero =>
    intro gens queue pairs act t r hinv hfuel
    have hglen : gens.length = 0 := by omega
    have hstop : continueLoop gens.length pairs.length limit = false := by
      rw [hglen]
      cases limit <;> simp [continueLoop]
    refine ⟨t, pairs, ?_, rrInv_terminal hGnd hinv hstop⟩
    simp [rrLoop, hstop]
  | succ fuel ih =>
    intro gens queue pairs act t r hinv hfuel
    cases hb : continueLoop gens.length pairs.length limit with
    | false =>
      refine ⟨t, pairs, ?_, rrInv_terminal hGnd hinv hb⟩
      simp [rrLoop, hb]
    | true =>
      obtain ⟨r1, hinv1, hq1ne'⟩ := rrInv_refill le hGnd hinv
      have hglen : 0 < gens.length := (continueLoop_true hb).1
      have hq1ne : (if queue.isEmpty then sortKeys le (gens.map (·.1))
          else queue) ≠ [] := hq1ne' hglen
      set queue1 := if queue.isEmpty then sortKeys le (gens.map (·.1))
        else queue with hq1def
      have hlast : queue1.getLast? = some (queue1.getLast hq1ne) :=
        List.getLast?_eq_getLast queue1 hq1ne
      set key := queue1.getLast hq1ne with hkeydef
      have hkeymem : key ∈ queue1 := List.getLast_mem hq1ne
      have hkeyact : key ∈ act := hinv1.queueSub key hkeymem
      have hkeyG : key ∈ G.map (·.1) := hinv1.actSub key hkeyact
      obtain ⟨v, hv⟩ := lookupKey_isSome_of_mem_keys hkeyG
      have hlkgens : lookupKey key gens = some (v.drop (t key)) := by
        rw [hinv1.rep]
        exact restrictGens_lookup hkeyact hv
      have hkvG : (key, v) ∈ G := lookupKey_mem hv
      have hq2eq : queue1.dropLast ++ [key] = queue1 :=
        List.dropLast_append_getLast hq1ne
      have hnd12 : (queue1.dropLast ++ [key]).Nodup := by
        rw [hq2eq]
        exact hinv1.queueNodup
      have hq2nd : queue1.dropLast.Nodup := hnd12.of_append_left
      have hkeynot2 : key ∉ queue1.dropLast := fun hmem =>
        (List.disjoint_of_nodup_append hnd12) hmem (List.mem_singleton_self key)
      have hnotq1 : ∀ k, k ∉ queue1.dropLast → k ≠ key → k ∉ queue1 := by
        intro k hk2 hkne hkq1
        have : k ∈ queue1.dropLast ++ [key] := by
          rw [hq2eq]
          exact hkq1
        rcases List.mem_append.mp this with h | h
        · exact hk2 h
        · exact hkne (List.mem_singleton.mp h)
      have htkeyr1 : t key = r1 := hinv1.tQueue key hkeyact hkeymem
      rcases hshape : v.drop (t key) with _ | ⟨p, rest0⟩
      · -- the popped generator is exhausted: it is deleted
        have htkeylen : t key = v.length := by
          have h1 : t key ≤ v.length := hinv1.tLe (key, v) hkvG
          have h2 : v.length ≤ t key := List.drop_eq_nil_iff.mp hshape
          omega
        have hinv2 : RRInv G (removeKey key gens) queue1.dropLast pairs
            (act.erase key) t r1 limit := by
          refine ⟨?_, ?_, hinv1.actNodup.erase key, hq2nd, ?_, ?_, ?_, ?_,
            hinv1.tLe, hinv1.pairsPerm, hinv1.pairsBound⟩
          · rw [hinv1.rep, removeKey_restrictGens hGnd hinv1.actNodup]
          · intro k hk
            exact hinv1.actSub k (List.mem_of_mem_erase hk)
          · intro k hk
            have hkne : k ≠ key := fun hh => hkeynot2 (hh ▸ hk)
            exact (List.mem_erase_of_ne hkne).mpr
              (hinv1.queueSub k ((List.dropLast_sublist queue1).subset hk))
          · intro k hk hk2
            exact hinv1.tQueue k (List.mem_of_mem_erase hk)
              ((List.dropLast_sublist queue1).subset hk2)
          · intro k hk hk2
            have hkact : k ∈ act := List.mem_of_mem_erase hk
            have hkne : k ≠ key := ((hinv1.actNodup.mem_erase_iff).mp hk).1
            exact hinv1.tAct k hkact (hnotq1 k hk2 hkne)
          · intro kv hkv hdead
            by_cases hkk : kv.1 = key
            · have hveq : kv.2 = v := by
                have hlk2 := lookupKey_eq_some_of_mem hGnd hkv
                rw [hkk, hv] at hlk2
                rw [Option.some.injEq] at hlk2
                exact hlk2.symm
              rw [hkk, hveq]
              refine ⟨htkeylen, ?_⟩
              rw [← htkeylen, htkeyr1]
            · have hnact : kv.1 ∉ act := fun hmem =>
                hdead ((List.mem_erase_of_ne hkk).mpr hmem)
              exact hinv1.tDead kv hkv hnact
        have hmeas : ((removeKey key gens).map (fun kv => kv.2.length)).sum +
            (removeKey key gens).length ≤ fuel := by
          have h1 := removeKey_sum hlkgens
          have h2 := removeKey_length hlkgens
          rw [hshape] at h1
          simp only [List.length_nil, Nat.add_zero] at h1
          omega
        obtain ⟨t', L, hrun, hconc⟩ := ih (removeKey key gens) queue1.dropLast
          pairs (act.erase key) t r1 hinv2 hmeas
        refine ⟨t', L, ?_, hconc⟩
        rw [← hrun]
        rw [rrLoop]
        rw [if_pos hb]
        simp only [← hq1def, hlast, hlkgens, hshape]
      · -- the popped generator yields a pair
        have hnotmem : canonPair p ∉ pairs := fun hmem =>
          (fresh_not_mem_consumedCanon hshape G hH1 hv)
            (hinv1.pairsPerm.subset hmem)
        have htlt : t key < v.length := by
          have hlen := congrArg List.length hshape
          rw [List.length_drop] at hlen
          simp only [List.length_cons] at hlen
          omega
        have hinv2 : RRInv G (updateKey key rest0 gens) queue1.dropLast
            (pairs ++ [canonPair p]) act
            (fun j => if j = key then t key + 1 else t j) r1 limit := by
          refine ⟨?_, hinv1.actSub, hinv1.actNodup, hq2nd, ?_, ?_, ?_, ?_,
            ?_, ?_, ?_⟩
          · rw [hinv1.rep]
            exact updateKey_restrictGens hkeyact hshape G hGnd hv
          · intro k hk
            exact hinv1.queueSub k ((List.dropLast_sublist queue1).subset hk)
          · intro k hk hk2
            have hkne : k ≠ key := fun hh => hkeynot2 (hh ▸ hk2)
            simp only [if_neg hkne]
            exact hinv1.tQueue k hk ((List.dropLast_sublist queue1).subset hk2)
          · intro k hk hk2
            by_cases hkk : k = key
            · subst hkk
              simp [htkeyr1]
            · simp only [if_neg hkk]
              exact hinv1.tAct k hk (hnotq1 k hk2 hkk)
          · intro kv hkv hdead
            have hkne : kv.1 ≠ key := fun hh => hdead (hh ▸ hkeyact)
            simp only [if_neg hkne]
            exact hinv1.tDead kv hkv hdead
          · intro kv hkv
            by_cases hkk : kv.1 = key
            · have hveq : kv.2 = v := by
                have hlk2 := lookupKey_eq_some_of_mem hGnd hkv
                rw [hkk, hv] at hlk2
                rw [Option.some.injEq] at hlk2
                exact hlk2.symm
              rw [hveq]
              simp only [hkk, if_pos]
              omega
            · simp only [if_neg hkk]
              exact hinv1.tLe kv hkv
          · have hsucc := consumedCanon_succ_perm hshape G hGnd hv
            exact (hinv1.pairsPerm.append_right [canonPair p]).trans hsucc.symm
          · intro n hn
            have := (continueLoop_true hb).2 n hn
            simp only [List.length_append, List.length_singleton]
            omega
        have hmeas : ((updateKey key rest0 gens).map
              (fun kv => kv.2.length)).sum +
            (updateKey key rest0 gens).length ≤ fuel := by
          have h1 := updateKey_sum hlkgens rest0
          have h2 := updateKey_length gens key rest0
          rw [hshape] at h1
          simp only [List.length_cons] at h1
          omega
        obtain ⟨t', L, hrun, hconc⟩ := ih (updateKey key rest0 gens)
          queue1.dropLast (pairs ++ [canonPair p]) act
          (fun j => if j = key then t key + 1 else t j) r1 hinv2 hmeas
        refine ⟨t', L, ?_, hconc⟩
        rw [← hrun]
        rw [rrLoop]
        rw [if_pos hb]
        simp only [← hq1def, hlast, hlkgens, hshape, if_neg hnotmem]

end GenSpeakerTrials

namespace GenSpeakerTrials

/-- `_exhaust_pairs_iterator_dictionary` run on a dictionary with distinct keys
whose generators' canonicalized yields are globally distinct: it returns
normally, and its output is characterized by a fair consumption profile. -/
theorem exhaust_run [DecidableEq K] (le : K → K → Bool) (G : GenDict K)
    (hGnd : (G.map (·.1)).Nodup) (hH1 : (allCanon G).Nodup)
    (limit : Option Nat) :
    ∃ (t' : K → Nat) (L : List RawPair),
      exhaust_pairs_iterator_dictionary le G limit = .ok L ∧
      L.Perm (consumedCanon G t') ∧
      (∀ kv ∈ G, t' kv.1 ≤ kv.2.length) ∧
      (∀ kv1 ∈ G, ∀ kv2 ∈ G, t' kv1.1 + 1 < t' kv2.1 →
        t' kv1.1 = kv1.2.length) ∧
      (limit = none → ∀ kv ∈ G, t' kv.1 = kv.2.length) ∧
      (∀ n, limit = some n → L.length ≤ n ∧
        (L.length < n → ∀ kv ∈ G, t' kv.1 = kv.2.length)) := by
  have hinv : RRInv G G (sortKeys le (G.map (·.1))) [] (G.map (·.1))
      (fun _ => 0) 0 limit := by
    refine ⟨?_, fun k hk => hk, hGnd, sortKeys_nodup le hGnd,
      fun k hk => (mem_sortKeys le _ k).mp hk, fun k _ _ => rfl, ?_, ?_,
      fun kv _ => Nat.zero_le _, ?_, fun n _ => Nat.zero_le _⟩
    · exact (restrictGens_all (fun kv hkv => List.mem_map_of_mem (·.1) hkv)).symm
    · intro k hk hknot
      exact absurd ((mem_sortKeys le _ k).mpr hk) hknot
    · intro kv hkv hdead
      exact absurd (List.mem_map_of_mem (·.1) hkv) hdead
    · rw [consumedCanon_zero]
  have hfuel : (G.map (fun kv => kv.2.length)).sum + G.length ≤ fuelFor G := by
    rw [fuelFor]
    omega
  exact rrLoop_run le G hGnd hH1 limit (fuelFor G) G (sortKeys le (G.map (·.1)))
    [] (G.map (·.1)) (fun _ => 0) 0 hinv hfuel

end GenSpeakerTrials

namespace GenSpeakerTrials

/-! ### Grouping and pair-generator combinatorics -/

theorem addToGroup_lookup_self (m : List (String × List String)) (spk s : String) :
    lookupKey spk (addToGroup m spk s) =
      some (((lookupKey spk m).getD []) ++ [s]) := by
  induction m with
  | nil => simp [addToGroup, lookupKey]
  | cons kv rest ih =>
    by_cases h : kv.1 = spk
    · simp [addToGroup, h, lookupKey]
    · simp [addToGroup, h, lookupKey, ih]

theorem addToGroup_lookup_ne (m : List (String × List String)) {spk k : String}
    (s : String) (h : k ≠ spk) :
    lookupKey k (addToGroup m spk s) = lookupKey k m := by
  induction m with
  | nil => simp [addToGroup, lookupKey, Ne.symm h]
  | cons kv rest ih =>
    by_cases h1 : kv.1 = spk
    · simp [addToGroup, h1, lookupKey, Ne.symm h]
    · by_cases h2 : kv.1 = k
      · simp [addToGroup, h1, lookupKey, h2, h]
      · simp [addToGroup, h1, lookupKey, h2, ih]

theorem foldl_addToGroup_lookup_some (mapS : String → String) :
    ∀ (samples : List String) (m : List (String × List String)) (k : String)
      (v : List String), lookupKey k m = some v →
      lookupKey k (samples.foldl (fun m s => addToGroup m (mapS s) s) m) =
        some (v ++ samples.filter (fun s => decide (mapS s = k))) := by
  intro samples
  induction samples with
  | nil =>
    intro m k v h
    simpa using h
  | cons s rest ih =>
    intro m k v h
    simp only [List.foldl_cons, List.filter_cons]
    by_cases hs : mapS s = k
    · have hstep : lookupKey k (addToGroup m (mapS s) s) = some (v ++ [s]) := by
        rw [hs, addToGroup_lookup_self, h]
        rfl
      rw [ih (addToGroup m (mapS s) s) k (v ++ [s]) hstep]
      simp [hs]
    · have hstep : lookupKey k (addToGroup m (mapS s) s) = some v := by
        rw [addToGroup_lookup_ne m s (fun hh => hs hh.symm), h]
      rw [ih (addToGroup m (mapS s) s) k v hstep]
      simp [hs]

theorem foldl_addToGroup_lookup_none (mapS : String → String) :
    ∀ (samples : List String) (m : List (String × List String)) (k : String),
      lookupKey k m = none →
      lookupKey k (samples.foldl (fun m s => addToGroup m (mapS s) s) m) =
        (if samples.filter (fun s => decide (mapS s = k)) = [] then none
         else some (samples.filter (fun s => decide (mapS s = k)))) := by
  intro samples
  induction samples with
  | nil =>
    intro m k h
    simpa using h
  | cons s rest ih =>
    intro m k h
    simp only [List.foldl_cons, List.filter_cons]
    by_cases hs : mapS s = k
    · have hstep : lookupKey k (addToGroup m (mapS s) s) = some [s] := by
        rw [hs, addToGroup_lookup_self, h]
        rfl
      rw [foldl_addToGroup_lookup_some mapS rest (addToGroup m (mapS s) s) k [s]
        hstep]
      simp [hs]
    · have hstep : lookupKey k (addToGroup m (mapS s) s) = none := by
        rw [addToGroup_lookup_ne m s (fun hh => hs hh.symm), h]
      rw [ih (addToGroup m (mapS s) s) k hstep]
      simp [hs]

theorem samples_per_speaker_lookup (samples : List String)
    (mapS : String → String) (k : String) :
    lookupKey k (samples_per_speaker samples mapS) =
      (if samples.filter (fun s => decide (mapS s = k)) = [] then none
       else some (samples.filter (fun s => decide (mapS s = k)))) := by
  exact foldl_addToGroup_lookup_none mapS samples [] k rfl

theorem addToGroup_keys (m : List (String × List String)) (spk s : String) :
    (addToGroup m spk s).map (·.1) =
      if spk ∈ m.map (·.1) then m.map (·.1) else m.map (·.1) ++ [spk] := by
  induction m with
  | nil => simp [addToGroup]
  | cons kv rest ih =>
    by_cases h : kv.1 = spk
    · simp [addToGroup, h]
    · by_cases h2 : spk ∈ rest.map (·.1)
      · simp [addToGroup, h, ih, h2, Ne.symm h]
      · simp [addToGroup, h, ih, h2, Ne.symm h]

theorem samples_per_speaker_keys_nodup (samples : List String)
    (mapS : String → String) :
    ((samples_per_speaker samples mapS).map (·.1)).Nodup := by
  have haux : ∀ (ss : List String) (m : List (String × List String)),
      (m.map (·.1)).Nodup →
      ((ss.foldl (fun m s => addToGroup m (mapS s) s) m).map (·.1)).Nodup := by
    intro ss
    induction ss with
    | nil =>
      intro m h
      exact h
    | cons s rest ih =>
      intro m h
      simp only [List.foldl_cons]
      apply ih
      rw [addToGroup_keys]
      by_cases hm : mapS s ∈ m.map (·.1)
      · rw [if_pos hm]
        exact h
      · rw [if_neg hm]
        rw [List.nodup_append]
        exact ⟨h, List.nodup_singleton _, fun a ha hb =>
          hm ((List.mem_singleton.mp hb) ▸ ha)⟩
  exact haux samples [] (by simp)

theorem mem_samples_per_speaker_keys (samples : List String)
    (mapS : String → String) (k : String) :
    k ∈ (samples_per_speaker samples mapS).map (·.1) ↔
      ∃ s ∈ samples, mapS s = k := by
  constructor
  · intro h
    by_contra hno
    have hfil : samples.filter (fun s => decide (mapS s = k)) = [] := by
      rw [List.filter_eq_nil_iff]
      intro a ha
      simp only [decide_eq_true_eq]
      exact fun he => hno ⟨a, ha, he⟩
    have : lookupKey k (samples_per_speaker samples mapS) = none := by
      rw [samples_per_speaker_lookup, if_pos hfil]
    exact (lookupKey_eq_none_iff _ k).mp this h
  · rintro ⟨s, hs, hks⟩
    by_contra hno
    have h1 : lookupKey k (samples_per_speaker samples mapS) = none :=
      (lookupKey_eq_none_iff _ k).mpr hno
    rw [samples_per_speaker_lookup] at h1
    by_cases hfil : samples.filter (fun s => decide (mapS s = k)) = []
    · rw [List.filter_eq_nil_iff] at hfil
      exact hfil s hs (by simp [hks])
    · rw [if_neg hfil] at h1
      cases h1

theorem samples_per_speaker_val {samples : List String}
    {mapS : String → String} {kv : String × List String}
    (hkv : kv ∈ samples_per_speaker samples mapS) :
    kv.2 = samples.filter (fun s => decide (mapS s = kv.1)) := by
  have h1 := lookupKey_eq_some_of_mem
    (samples_per_speaker_keys_nodup samples mapS) hkv
  rw [samples_per_speaker_lookup] at h1
  by_cases hfil : samples.filter (fun s => decide (mapS s = kv.1)) = []
  · rw [if_pos hfil] at h1
    cases h1
  · rw [if_neg hfil] at h1
    rw [Option.some.injEq] at h1
    exact h1.symm

theorem mem_combinations2_fst_snd {v : List String} {q : RawPair}
    (h : q ∈ combinations2 v) : q.1 ∈ v ∧ q.2 ∈ v := by
  induction v with
  | nil => simp [combinations2] at h
  | cons x xs ih =>
    simp only [combinations2, List.mem_append, List.mem_map] at h
    rcases h with ⟨y, hy, rfl⟩ | h
    · exact ⟨List.mem_cons_self _ _, List.mem_cons_of_mem _ hy⟩
    · rcases ih h with ⟨h1, h2⟩
      exact ⟨List.mem_cons_of_mem _ h1, List.mem_cons_of_mem _ h2⟩

theorem combinations2_ne {v : List String} (hnd : v.Nodup) {q : RawPair}
    (h : q ∈ combinations2 v) : q.1 ≠ q.2 := by
  induction v with
  | nil => simp [combinations2] at h
  | cons x xs ih =>
    rcases List.nodup_cons.mp hnd with ⟨hx, hxs⟩
    simp only [combinations2, List.mem_append, List.mem_map] at h
    rcases h with ⟨y, hy, rfl⟩ | h
    · intro he
      apply hx
      rw [show x = y from he]
      exact hy
    · exact ih hxs h

theorem canon_mem_combinations2 {v : List String} {a b : String} (ha : a ∈ v)
    (hb : b ∈ v) (hne : a ≠ b) :
    canonPair (a, b) ∈ (combinations2 v).map canonPair := by
  induction v with
  | nil => simp at ha
  | cons x xs ih =>
    simp only [combinations2, List.map_append, List.mem_append]
    rcases List.mem_cons.mp ha with rfl | ha'
    · rcases List.mem_cons.mp hb with rfl | hb'
      · exact absurd rfl hne
      · exact Or.inl (List.mem_map_of_mem canonPair
          (List.mem_map_of_mem _ hb'))
    · rcases List.mem_cons.mp hb with rfl | hb'
      · rw [canonPair_comm]
        exact Or.inl (List.mem_map_of_mem canonPair
          (List.mem_map_of_mem _ ha'))
      · exact Or.inr (ih ha' hb')

theorem nodup_canon_combinations2 {v : List String} (hnd : v.Nodup) :
    ((combinations2 v).map canonPair).Nodup := by
  induction v with
  | nil => simp [combinations2]
  | cons x xs ih =>
    rcases List.nodup_cons.mp hnd with ⟨hx, hxs⟩
    simp only [combinations2, List.map_append]
    rw [List.nodup_append]
    refine ⟨?_, ih hxs, ?_⟩
    · rw [List.map_map]
      apply List.Nodup.map_on ?_ hxs
      intro y1 h1 y2 h2 heq
      simp only [Function.comp_apply] at heq
      rcases (canonPair_eq_iff x y1 x y2).mp heq with ⟨-, h⟩ | ⟨h1', -⟩
      · exact h
      · exact absurd (h1' ▸ h2 : x ∈ xs) hx
    · intro c hc1 hc2
      rw [List.map_map] at hc1
      rcases List.mem_map.mp hc1 with ⟨y, hy, hcy⟩
      rcases List.mem_map.mp hc2 with ⟨q, hq, hcq⟩
      rcases mem_combinations2_fst_snd hq with ⟨hq1, hq2⟩
      simp only [Function.comp_apply] at hcy
      have heq : canonPair (x, y) = canonPair (q.1, q.2) := by
        rw [hcy, hcq]
      rcases (canonPair_eq_iff x y q.1 q.2).mp heq with ⟨he1, -⟩ | ⟨he1, -⟩
      · exact hx (he1 ▸ hq1)
      · exact hx (he1 ▸ hq2)

theorem mem_productPairs {v1 v2 : List String} {q : RawPair} :
    q ∈ productPairs v1 v2 ↔ q.1 ∈ v1 ∧ q.2 ∈ v2 := by
  constructor
  · intro h
    rcases List.mem_flatMap.mp h with ⟨a, ha, hq⟩
    rcases List.mem_map.mp hq with ⟨b, hb, rfl⟩
    exact ⟨ha, hb⟩
  · rintro ⟨h1, h2⟩
    apply List.mem_flatMap.mpr
    exact ⟨q.1, h1, List.mem_map.mpr ⟨q.2, h2, rfl⟩⟩

theorem nodup_canon_productPairs {v1 v2 : List String} (h1 : v1.Nodup)
    (h2 : v2.Nodup) (hdisj : ∀ a ∈ v1, a ∉ v2) :
    ((productPairs v1 v2).map canonPair).Nodup := by
  have hprod : (productPairs v1 v2).Nodup := h1.product h2
  apply List.Nodup.map_on ?_ hprod
  intro q1 hq1 q2 hq2 heq
  rcases mem_productPairs.mp hq1 with ⟨ha1, hb1⟩
  rcases mem_productPairs.mp hq2 with ⟨ha2, hb2⟩
  have heq' : canonPair (q1.1, q1.2) = canonPair (q2.1, q2.2) := by
    simpa using heq
  rcases (canonPair_eq_iff q1.1 q1.2 q2.1 q2.2).mp heq' with ⟨he1, he2⟩ |
    ⟨he1, he2⟩
  · obtain ⟨a1, b1⟩ := q1
    obtain ⟨a2, b2⟩ := q2
    simp only at he1 he2
    rw [he1, he2]
  · exact absurd (he1 ▸ hb2 : q1.1 ∈ v2) (hdisj q1.1 ha1)

theorem canonPair_sorted (p : RawPair) :
    strLeb (canonPair p).1 (canonPair p).2 = true := by
  by_cases h : strLeb p.1 p.2 = true
  · simp [canonPair, h]
  · simp only [canonPair, if_neg h]
    exact strLeb_false (Bool.not_eq_true _ ▸ h : strLeb p.1 p.2 = false)

theorem canonPair_components (p : RawPair) {a b : String}
    (h : canonPair p = (a, b)) : p = (a, b) ∨ p = (b, a) := by
  by_cases hle : strLeb p.1 p.2 = true
  · rw [canonPair, if_pos hle] at h
    exact Or.inl h
  · rw [canonPair, if_neg hle] at h
    right
    obtain ⟨p1, p2⟩ := p
    simp only [Prod.mk.injEq] at h
    simp [h.1, h.2]

theorem mem_speakerPairSet {keys : List String} {ess : Bool}
    {gmap : String → String} {q : String × String} :
    q ∈ speakerPairSet keys ess gmap ↔
      ∃ k1 k2, k1 ∈ keys ∧ k2 ∈ keys ∧ k1 ≠ k2 ∧
        (ess = true → gmap k1 = gmap k2) ∧ q = canonPair (k1, k2) := by
  simp only [speakerPairSet, List.mem_dedup, List.mem_flatMap,
    List.mem_filterMap]
  constructor
  · rintro ⟨k1, hk1, k2, hk2, hq⟩
    by_cases hcond : k1 = k2 ∨ (ess = true ∧ gmap k1 ≠ gmap k2)
    · rw [if_pos hcond] at hq
      cases hq
    · rw [if_neg hcond] at hq
      rw [Option.some.injEq] at hq
      push_neg at hcond
      exact ⟨k1, k2, hk1, hk2, hcond.1, hcond.2, hq.symm⟩
  · rintro ⟨k1, k2, hk1, hk2, hne, hg, rfl⟩
    refine ⟨k1, hk1, k2, hk2, ?_⟩
    rw [if_neg]
    rintro (h | ⟨he, hne'⟩)
    · exact hne h
    · exact hne' (hg he)

end GenSpeakerTrials

namespace GenSpeakerTrials

theorem mem_group_getD {samples : List String} {mapS : String → String}
    {k x : String} :
    x ∈ (lookupKey k (samples_per_speaker samples mapS)).getD [] ↔
      x ∈ samples ∧ mapS x = k := by
  rw [samples_per_speaker_lookup]
  by_cases hfil : samples.filter (fun s => decide (mapS s = k)) = []
  · rw [if_pos hfil]
    simp only [Option.getD_none, List.not_mem_nil, false_iff]
    rintro ⟨hx, hk⟩
    rw [List.filter_eq_nil_iff] at hfil
    exact hfil x hx (by simp [hk])
  · rw [if_neg hfil]
    simp only [Option.getD_some, List.mem_filter, decide_eq_true_eq]

theorem nodup_group_getD {samples : List String} (mapS : String → String)
    (k : String) (hnd : samples.Nodup) :
    ((lookupKey k (samples_per_speaker samples mapS)).getD []).Nodup := by
  rw [samples_per_speaker_lookup]
  by_cases hfil : samples.filter (fun s => decide (mapS s = k)) = []
  · rw [if_pos hfil]
    simp
  · rw [if_neg hfil]
    exact hnd.filter _

theorem flatMap_of_map (l : List A) (g : A → B) (f : B → List C) :
    (l.map g).flatMap f = l.flatMap (fun x => f (g x)) := by
  induction l with
  | nil => rfl
  | cons x xs ih =>
    simp only [List.map_cons, List.flatMap_cons, ih]

theorem nodup_flat_combinations2 (mapS : String → String) :
    ∀ (T : List (String × List String)), (T.map (·.1)).Nodup →
      (∀ kv ∈ T, kv.2.Nodup) →
      (∀ kv ∈ T, ∀ x ∈ kv.2, mapS x = kv.1) →
      (T.flatMap (fun kv => (combinations2 kv.2).map canonPair)).Nodup := by
  intro T
  induction T with
  | nil =>
    intro _ _ _
    simp
  | cons kv tl ih =>
    intro hkeys hvals htag
    simp only [List.map_cons, List.nodup_cons] at hkeys
    simp only [List.flatMap_cons]
    rw [List.nodup_append]
    refine ⟨nodup_canon_combinations2 (hvals kv (List.mem_cons_self _ _)),
      ih hkeys.2 (fun kv' h => hvals kv' (List.mem_cons_of_mem _ h))
        (fun kv' h => htag kv' (List.mem_cons_of_mem _ h)), ?_⟩
    intro c hc1 hc2
    rcases List.mem_map.mp hc1 with ⟨q, hq, hcq⟩
    rcases List.mem_flatMap.mp hc2 with ⟨kv', hkv', hc2'⟩
    rcases List.mem_map.mp hc2' with ⟨q', hq', hcq'⟩
    have hspk : mapS c.1 = kv.1 := by
      rw [← hcq]
      rcases canonPair_mem_left q with h | h <;> rw [h]
      · exact htag kv (List.mem_cons_self _ _) q.1
          (mem_combinations2_fst_snd hq).1
      · exact htag kv (List.mem_cons_self _ _) q.2
          (mem_combinations2_fst_snd hq).2
    have hspk' : mapS c.1 = kv'.1 := by
      rw [← hcq']
      rcases canonPair_mem_left q' with h | h <;> rw [h]
      · exact htag kv' (List.mem_cons_of_mem _ hkv') q'.1
          (mem_combinations2_fst_snd hq').1
      · exact htag kv' (List.mem_cons_of_mem _ hkv') q'.2
          (mem_combinations2_fst_snd hq').2
    apply hkeys.1
    rw [show kv.1 = kv'.1 from hspk ▸ hspk']
    exact List.mem_map_of_mem (·.1) hkv'

theorem speakerPairSet_props {keys : List String} {ess : Bool}
    {gmap : String → String} {q : String × String}
    (h : q ∈ speakerPairSet keys ess gmap) :
    q.1 ∈ keys ∧ q.2 ∈ keys ∧ q.1 ≠ q.2 ∧
      (ess = true → gmap q.1 = gmap q.2) ∧ strLeb q.1 q.2 = true := by
  rcases mem_speakerPairSet.mp h with ⟨k1, k2, h1, h2, hne, hg, rfl⟩
  by_cases hle : strLeb k1 k2 = true
  · simp only [canonPair, if_pos hle]
    exact ⟨h1, h2, hne, hg, hle⟩
  · simp only [canonPair, if_neg hle]
    exact ⟨h2, h1, Ne.symm hne, fun he => (hg he).symm,
      strLeb_false (Bool.not_eq_true _ ▸ hle : strLeb k1 k2 = false)⟩

theorem nodup_flat_products (samples : List String) (mapS : String → String)
    (hnd : samples.Nodup) :
    ∀ (P : List (String × String)), P.Nodup →
      (∀ kk ∈ P, kk.1 ≠ kk.2 ∧ strLeb kk.1 kk.2 = true) →
      (P.flatMap (fun kk =>
        (productPairs
          ((lookupKey kk.1 (samples_per_speaker samples mapS)).getD [])
          ((lookupKey kk.2 (samples_per_speaker samples mapS)).getD [])).map
            canonPair)).Nodup := by
  intro P
  induction P with
  | nil =>
    intro _ _
    simp
  | cons kk tl ih =>
    intro hnd' hprops
    rcases List.nodup_cons.mp hnd' with ⟨hkk, htl⟩
    rcases hprops kk (List.mem_cons_self _ _) with ⟨hne, hle⟩
    simp only [List.flatMap_cons]
    rw [List.nodup_append]
    refine ⟨?_, ih htl (fun kk' h => hprops kk' (List.mem_cons_of_mem _ h)), ?_⟩
    · apply nodup_canon_productPairs (nodup_group_getD mapS kk.1 hnd)
        (nodup_group_getD mapS kk.2 hnd)
      intro x hx1 hx2
      rcases mem_group_getD.mp hx1 with ⟨-, h1⟩
      rcases mem_group_getD.mp hx2 with ⟨-, h2⟩
      exact hne (h1 ▸ h2)
    · intro c hc1 hc2
      rcases List.mem_map.mp hc1 with ⟨q, hq, hcq⟩
      rcases List.mem_flatMap.mp hc2 with ⟨kk', hkk', hc2'⟩
      rcases List.mem_map.mp hc2' with ⟨q', hq', hcq'⟩
      rcases hprops kk' (List.mem_cons_of_mem _ hkk') with ⟨hne', hle'⟩
      rcases mem_productPairs.mp hq with ⟨ha, hb⟩
      rcases mem_productPairs.mp hq' with ⟨ha', hb'⟩
      rcases mem_group_getD.mp ha with ⟨-, hspa⟩
      rcases mem_group_getD.mp hb with ⟨-, hspb⟩
      rcases mem_group_getD.mp ha' with ⟨-, hspa'⟩
      rcases mem_group_getD.mp hb' with ⟨-, hspb'⟩
      have heq : canonPair (q.1, q.2) = canonPair (q'.1, q'.2) := by
        rw [← hcq'] at hcq
        simpa using hcq
      rcases (canonPair_eq_iff q.1 q.2 q'.1 q'.2).mp heq with ⟨he1, he2⟩ |
        ⟨he1, he2⟩
      · -- same orientation: the two speaker pairs coincide
        apply hkk
        have hk1 : kk.1 = kk'.1 := by
          rw [← hspa, ← hspa', he1]
        have hk2 : kk.2 = kk'.2 := by
          rw [← hspb, ← hspb', he2]
        have : kk = kk' := by
          obtain ⟨x1, x2⟩ := kk
          obtain ⟨y1, y2⟩ := kk'
          simp only at hk1 hk2
          rw [hk1, hk2]
        rw [this]
        exact hkk'
      · -- crossed orientation contradicts both pairs being sorted
        have hk1 : kk.1 = kk'.2 := by
          rw [← hspa, ← hspb', he1]
        have hk2 : kk.2 = kk'.1 := by
          rw [← hspb, ← hspa', he2]
        rw [hk1, hk2] at hle
        exact hne' (strLeb_antisymm hle' hle)

end GenSpeakerTrials

namespace GenSpeakerTrials

/-- `_positive_pairs` on well-formed input (unique samples): it returns normally;
the output is duplicate-free; every output pair is a canonicalized same-speaker
2-combination; with no limit the output holds exactly those. -/
theorem positive_pairs_spec (samples : List String) (mapS : String → String)
    (hnd : samples.Nodup) (limit : Option Nat) :
    ∃ L, positive_pairs (samples_per_speaker samples mapS) limit = .ok L ∧
      L.Nodup ∧
      (∀ c ∈ L, ∃ a b, a ∈ samples ∧ b ∈ samples ∧ a ≠ b ∧
        mapS a = mapS b ∧ c = canonPair (a, b)) ∧
      (limit = none → ∀ c, (c ∈ L ↔ ∃ a b, a ∈ samples ∧ b ∈ samples ∧
        a ≠ b ∧ mapS a = mapS b ∧ c = canonPair (a, b))) := by
  classical
  set spsp := samples_per_speaker samples mapS with hspsp
  set S := sortKeys (fun kv1 kv2 => strLeb kv1.1 kv2.1) spsp with hS
  set PG := S.map (fun kv => (kv.1, combinations2 kv.2)) with hPG
  have hSperm : S.Perm spsp := sortKeys_perm _ _
  have hkeysS : (S.map (·.1)).Nodup :=
    (hSperm.map (·.1)).nodup_iff.mpr (samples_per_speaker_keys_nodup samples mapS)
  have hkeysPG : (PG.map (·.1)).Nodup := by
    have hmm : PG.map (·.1) = S.map (·.1) := by
      rw [hPG, List.map_map]
      rfl
    rw [hmm]
    exact hkeysS
  have hvalEq : ∀ kv ∈ S, kv.2 = samples.filter (fun s => decide (mapS s = kv.1)) :=
    fun kv hkv => samples_per_speaker_val (hSperm.mem_iff.mp hkv)
  have hallPG : allCanon PG =
      S.flatMap (fun kv => (combinations2 kv.2).map canonPair) := by
    rw [hPG, allCanon, flatMap_of_map]
  have hH1 : (allCanon PG).Nodup := by
    rw [hallPG]
    apply nodup_flat_combinations2 mapS S hkeysS
    · intro kv hkv
      rw [hvalEq kv hkv]
      exact hnd.filter _
    · intro kv hkv x hx
      rw [hvalEq kv hkv] at hx
      rcases List.mem_filter.mp hx with ⟨-, h⟩
      exact decide_eq_true_eq.mp h
  have hmemAll : ∀ c, c ∈ allCanon PG ↔ ∃ a b, a ∈ samples ∧ b ∈ samples ∧
      a ≠ b ∧ mapS a = mapS b ∧ c = canonPair (a, b) := by
    intro c
    rw [hallPG]
    constructor
    · intro hc
      rcases List.mem_flatMap.mp hc with ⟨kv, hkv, hc2⟩
      rcases List.mem_map.mp hc2 with ⟨q, hq, hcq⟩
      rcases mem_combinations2_fst_snd hq with ⟨h1, h2⟩
      rw [hvalEq kv hkv] at h1 h2
      rcases List.mem_filter.mp h1 with ⟨ha, ha2⟩
      rcases List.mem_filter.mp h2 with ⟨hb, hb2⟩
      have hv : kv.2.Nodup := by
        rw [hvalEq kv hkv]
        exact hnd.filter _
      refine ⟨q.1, q.2, ha, hb, combinations2_ne hv hq, ?_, ?_⟩
      · rw [decide_eq_true_eq.mp ha2, decide_eq_true_eq.mp hb2]
      · rw [← hcq]
    · rintro ⟨a, b, ha, hb, hne, hmap, rfl⟩
      apply List.mem_flatMap.mpr
      have hkkey : mapS a ∈ spsp.map (·.1) :=
        (mem_samples_per_speaker_keys samples mapS (mapS a)).mpr ⟨a, ha, rfl⟩
      rcases List.mem_map.mp hkkey with ⟨kv, hkv, hk1⟩
      have hkvS : kv ∈ S := hSperm.mem_iff.mpr hkv
      refine ⟨kv, hkvS, ?_⟩
      rw [hvalEq kv hkvS]
      apply canon_mem_combinations2 ?_ ?_ hne
      · exact List.mem_filter.mpr ⟨ha, by simp [hk1]⟩
      · exact List.mem_filter.mpr ⟨hb, by simp [hk1, hmap]⟩
  obtain ⟨t', L, hok, hperm, hle, hfair, hnone, hsome⟩ :=
    exhaust_run strLeb PG hkeysPG hH1 limit
  refine ⟨L, hok, hperm.nodup_iff.mpr
    ((consumedCanon_sublist PG t').nodup hH1), ?_, ?_⟩
  · intro c hc
    exact (hmemAll c).mp
      ((consumedCanon_sublist PG t').mem (hperm.mem_iff.mp hc))
  · intro hlim c
    rw [hperm.mem_iff, consumedCanon_full (hnone hlim)]
    exact hmemAll c

/-- `_negative_pairs` on well-formed input (unique samples): it returns normally;
the output is duplicate-free; every output pair is a canonicalized cross-speaker
pair respecting the gender filter; with no limit the output holds exactly those. -/
theorem negative_pairs_spec (samples : List String) (mapS gmap : String → String)
    (ess : Bool) (hnd : samples.Nodup) (limit : Option Nat) :
    ∃ L, negative_pairs (samples_per_speaker samples mapS) ess gmap limit = .ok L ∧
      L.Nodup ∧
      (∀ c ∈ L, ∃ a b, a ∈ samples ∧ b ∈ samples ∧ mapS a ≠ mapS b ∧
        (ess = true → gmap (mapS a) = gmap (mapS b)) ∧ c = canonPair (a, b)) ∧
      (limit = none → ∀ c, (c ∈ L ↔ ∃ a b, a ∈ samples ∧ b ∈ samples ∧
        mapS a ≠ mapS b ∧ (ess = true → gmap (mapS a) = gmap (mapS b)) ∧
        c = canonPair (a, b))) := by
  classical
  set spsp := samples_per_speaker samples mapS with hspsp
  set sps := speakerPairSet (spsp.map (·.1)) ess gmap with hsps
  set NG := sps.map (fun kk =>
    (kk, productPairs ((lookupKey kk.1 spsp).getD [])
      ((lookupKey kk.2 spsp).getD []))) with hNG
  have hspsNodup : sps.Nodup := by
    rw [hsps, speakerPairSet]
    exact List.nodup_dedup _
  have hkeysNG : (NG.map (·.1)).Nodup := by
    have hmm : NG.map (·.1) = sps := by
      rw [hNG, List.map_map]
      exact List.map_id sps
    rw [hmm]
    exact hspsNodup
  have hallNG : allCanon NG = sps.flatMap (fun kk =>
      (productPairs ((lookupKey kk.1 spsp).getD [])
        ((lookupKey kk.2 spsp).getD [])).map canonPair) := by
    rw [hNG, allCanon, flatMap_of_map]
  have hH1 : (allCanon NG).Nodup := by
    rw [hallNG]
    apply nodup_flat_products samples mapS hnd sps hspsNodup
    intro kk hkk
    rcases speakerPairSet_props hkk with ⟨-, -, hne, -, hle⟩
    exact ⟨hne, hle⟩
  have hmemAll : ∀ c, c ∈ allCanon NG ↔ ∃ a b, a ∈ samples ∧ b ∈ samples ∧
      mapS a ≠ mapS b ∧ (ess = true → gmap (mapS a) = gmap (mapS b)) ∧
      c = canonPair (a, b) := by
    intro c
    rw [hallNG]
    constructor
    · intro hc
      rcases List.mem_flatMap.mp hc with ⟨kk, hkk, hc2⟩
      rcases List.mem_map.mp hc2 with ⟨q, hq, hcq⟩
      rcases speakerPairSet_props hkk with ⟨-, -, hne, hg, -⟩
      rcases mem_productPairs.mp hq with ⟨ha, hb⟩
      rcases mem_group_getD.mp ha with ⟨ha1, ha2⟩
      rcases mem_group_getD.mp hb with ⟨hb1, hb2⟩
      refine ⟨q.1, q.2, ha1, hb1, ?_, ?_, by rw [← hcq]⟩
      · rw [ha2, hb2]
        exact hne
      · rw [ha2, hb2]
        exact hg
    · rintro ⟨a, b, ha, hb, hne, hg, rfl⟩
      apply List.mem_flatMap.mpr
      have hk1 : mapS a ∈ spsp.map (·.1) :=
        (mem_samples_per_speaker_keys samples mapS (mapS a)).mpr ⟨a, ha, rfl⟩
      have hk2 : mapS b ∈ spsp.map (·.1) :=
        (mem_samples_per_speaker_keys samples mapS (mapS b)).mpr ⟨b, hb, rfl⟩
      have hkk : canonPair (mapS a, mapS b) ∈ sps := by
        rw [hsps]
        exact mem_speakerPairSet.mpr ⟨mapS a, mapS b, hk1, hk2, hne, hg, rfl⟩
      refine ⟨canonPair (mapS a, mapS b), hkk, ?_⟩
      by_cases hleb : strLeb (mapS a) (mapS b) = true
      · rw [show canonPair (mapS a, mapS b) = (mapS a, mapS b) from by
          rw [canonPair, if_pos hleb]]
        apply List.mem_map.mpr
        refine ⟨(a, b), ?_, rfl⟩
        apply mem_productPairs.mpr
        exact ⟨mem_group_getD.mpr ⟨ha, rfl⟩, mem_group_getD.mpr ⟨hb, rfl⟩⟩
      · rw [show canonPair (mapS a, mapS b) = (mapS b, mapS a) from by
          rw [canonPair, if_neg hleb]]
        apply List.mem_map.mpr
        refine ⟨(b, a), ?_, canonPair_comm b a⟩
        apply mem_productPairs.mpr
        exact ⟨mem_group_getD.mpr ⟨hb, rfl⟩, mem_group_getD.mpr ⟨ha, rfl⟩⟩
  obtain ⟨t', L, hok, hperm, hle, hfair, hnone, hsome⟩ :=
    exhaust_run strPairLeb NG hkeysNG hH1 limit
  refine ⟨L, hok, hperm.nodup_iff.mpr
    ((consumedCanon_sublist NG t').nodup hH1), ?_, ?_⟩
  · intro c hc
    exact (hmemAll c).mp
      ((consumedCanon_sublist NG t').mem (hperm.mem_iff.mp hc))
  · intro hlim c
    rw [hperm.mem_iff, consumedCanon_full (hnone hlim)]
    exact hmemAll c

end GenSpeakerTrials

namespace GenSpeakerTrials

/-- C6: under well-formed grouping (each sample in exactly one group, no group
with a repeated sample — both guaranteed by a duplicate-free sample set), the
duplicate-pair branch (`raise ValueError("duplicate entry")`) is unreachable in
both positive and negative mode. -/
theorem no_duplicate_pair_error (samples : List String)
    (mapS gmap : String → String) (ess : Bool) (limit : Option Nat)
    (hnd : samples.Nodup) :
    positive_pairs (samples_per_speaker samples mapS) limit ≠ .dupError ∧
    negative_pairs (samples_per_speaker samples mapS) ess gmap limit ≠
      .dupError := by
  obtain ⟨L1, hok1, -, -, -⟩ := positive_pairs_spec samples mapS hnd limit
  obtain ⟨L2, hok2, -, -, -⟩ := negative_pairs_spec samples mapS gmap ess hnd limit
  rw [hok1, hok2]
  exact ⟨fun h => RRResult.noConfusion h, fun h => RRResult.noConfusion h⟩

theorem no_duplicate_pair_error_witness :
    (["x", "y", "z"] : List String).Nodup ∧
    (positive_pairs (samples_per_speaker ["x", "y", "z"] (fun _ => "s"))
        (some 2) ≠ .dupError ∧
      negative_pairs (samples_per_speaker ["x", "y", "z"] (fun _ => "s"))
        true (fun _ => "f") (some 2) ≠ .dupError) :=
  ⟨by decide, no_duplicate_pair_error ["x", "y", "z"] (fun _ => "s")
    (fun _ => "f") true (some 2) (by decide)⟩

/-- `generate_speaker_trials` in terms of the two scheduler results. -/
theorem generate_eq {samples : List String} {mapS gmap : String → String}
    {ess : Bool} {limit : Option Nat} {posP negP : List RawPair}
    (hpos : positive_pairs (samples_per_speaker samples mapS) limit = .ok posP)
    (hneg : negative_pairs (samples_per_speaker samples mapS) ess gmap limit =
      .ok negP) :
    generate_speaker_trials samples mapS gmap ess limit =
      some (sortKeys trialLeb
          ((posP.map (fun p => SpeakerTrial.mk p.1 p.2 true)).dedup) ++
        sortKeys trialLeb
          ((negP.map (fun p => SpeakerTrial.mk p.1 p.2 false)).dedup)) := by
  simp only [generate_speaker_trials, hpos, hneg]

theorem mem_map_mk_flag {l : List RawPair} {b : Bool} {t : SpeakerTrial}
    (h : t ∈ l.map (fun p => SpeakerTrial.mk p.1 p.2 b)) :
    t.same_speaker = b := by
  rcases List.mem_map.mp h with ⟨p, -, rfl⟩
  rfl

theorem filter_parts_pos {pos neg : List SpeakerTrial}
    (hpos : ∀ t ∈ pos, t.same_speaker = true)
    (hneg : ∀ t ∈ neg, t.same_speaker = false) :
    (pos ++ neg).filter (fun t => t.same_speaker) = pos := by
  rw [List.filter_append, List.filter_eq_self.mpr hpos,
    List.filter_eq_nil_iff.mpr ?_, List.append_nil]
  intro t ht
  rw [hneg t ht]
  decide

theorem filter_parts_neg {pos neg : List SpeakerTrial}
    (hpos : ∀ t ∈ pos, t.same_speaker = true)
    (hneg : ∀ t ∈ neg, t.same_speaker = false) :
    (pos ++ neg).filter (fun t => !t.same_speaker) = neg := by
  rw [List.filter_append, List.filter_eq_nil_iff.mpr ?_, List.nil_append,
    List.filter_eq_self.mpr ?_]
  · intro t ht
    rw [hneg t ht]
    rfl
  · intro t ht
    rw [hpos t ht]
    decide

end GenSpeakerTrials

namespace GenSpeakerTrials

/-- C2: with `limit_num_trials` unset and each sample mapped to exactly one
speaker, the positive part of `generate_speaker_trials` holds exactly one trial
for each unordered 2-combination of one speaker's samples (duplicate-free, and a
trial is present iff it is the canonical form of such a combination); a speaker
with fewer than 2 samples contributes none, since such a combination needs two
distinct samples of the same speaker. -/
theorem positive_correctness (samples : List String)
    (mapS gmap : String → String) (ess : Bool) (hnd : samples.Nodup) :
    ∃ ts, generate_speaker_trials samples mapS gmap ess none = some ts ∧
      (ts.filter (fun t => t.same_speaker)).Nodup ∧
      (∀ t, t ∈ ts.filter (fun t => t.same_speaker) ↔
        ∃ a b : String, a ∈ samples ∧ b ∈ samples ∧ a ≠ b ∧ mapS a = mapS b ∧
          t = SpeakerTrial.mk (canonPair (a, b)).1 (canonPair (a, b)).2 true) := by
  obtain ⟨posP, hok1, hnd1, -, hiff1⟩ := positive_pairs_spec samples mapS hnd none
  obtain ⟨negP, hok2, -, -, -⟩ := negative_pairs_spec samples mapS gmap ess hnd none
  have hgen := generate_eq hok1 hok2
  set pos := (posP.map (fun p => SpeakerTrial.mk p.1 p.2 true)).dedup with hposdef
  set neg := (negP.map (fun p => SpeakerTrial.mk p.1 p.2 false)).dedup with hnegdef
  have hfilter : (sortKeys trialLeb pos ++ sortKeys trialLeb neg).filter
      (fun t => t.same_speaker) = sortKeys trialLeb pos := by
    apply filter_parts_pos
    · intro t ht
      exact mem_map_mk_flag (List.mem_dedup.mp ((mem_sortKeys _ _ t).mp ht))
    · intro t ht
      exact mem_map_mk_flag (List.mem_dedup.mp ((mem_sortKeys _ _ t).mp ht))
  refine ⟨_, hgen, ?_, ?_⟩
  · rw [hfilter]
    exact sortKeys_nodup _ (List.nodup_dedup _)
  · intro t
    rw [hfilter, mem_sortKeys, hposdef, List.mem_dedup, List.mem_map]
    constructor
    · rintro ⟨p, hp, rfl⟩
      rcases ((hiff1 rfl) p).mp hp with ⟨a, b, ha, hb, hne, hmap, hc⟩
      exact ⟨a, b, ha, hb, hne, hmap, by rw [hc]⟩
    · rintro ⟨a, b, ha, hb, hne, hmap, rfl⟩
      exact ⟨canonPair (a, b), ((hiff1 rfl) (canonPair (a, b))).mpr
        ⟨a, b, ha, hb, hne, hmap, rfl⟩, rfl⟩

theorem positive_correctness_witness :
    (["x", "y"] : List String).Nodup ∧
    (∃ ts, generate_speaker_trials ["x", "y"] (fun _ : String => "s")
        (fun _ : String => "f") true none = some ts ∧
      (ts.filter (fun t => t.same_speaker)).Nodup ∧
      (∀ t, t ∈ ts.filter (fun t => t.same_speaker) ↔
        ∃ a b : String, a ∈ (["x", "y"] : List String) ∧
          b ∈ (["x", "y"] : List String) ∧ a ≠ b ∧
          (fun _ : String => "s") a = (fun _ : String => "s") b ∧
          t = SpeakerTrial.mk (canonPair (a, b)).1 (canonPair (a, b)).2 true)) :=
  ⟨by decide, positive_correctness ["x", "y"] (fun _ : String => "s")
    (fun _ : String => "f") true (by decide)⟩

/-- C3: with `limit_num_trials` unset, the negative part of
`generate_speaker_trials` holds exactly one trial for each unordered cross-pair
of samples of two distinct speakers passing the gender filter (both genders
equal when `ensure_same_sex_trials`, unconditionally otherwise); in particular
with the flag set no negative trial mixes recorded genders, by the left-to-right
direction. -/
theorem negative_correctness (samples : List String)
    (mapS gmap : String → String) (ess : Bool) (hnd : samples.Nodup) :
    ∃ ts, generate_speaker_trials samples mapS gmap ess none = some ts ∧
      (ts.filter (fun t => !t.same_speaker)).Nodup ∧
      (∀ t, t ∈ ts.filter (fun t => !t.same_speaker) ↔
        ∃ a b : String, a ∈ samples ∧ b ∈ samples ∧ mapS a ≠ mapS b ∧
          (ess = true → gmap (mapS a) = gmap (mapS b)) ∧
          t = SpeakerTrial.mk (canonPair (a, b)).1 (canonPair (a, b)).2 false) := by
  obtain ⟨posP, hok1, -, -, -⟩ := positive_pairs_spec samples mapS hnd none
  obtain ⟨negP, hok2, hnd2, -, hiff2⟩ :=
    negative_pairs_spec samples mapS gmap ess hnd none
  have hgen := generate_eq hok1 hok2
  set pos := (posP.map (fun p => SpeakerTrial.mk p.1 p.2 true)).dedup with hposdef
  set neg := (negP.map (fun p => SpeakerTrial.mk p.1 p.2 false)).dedup with hnegdef
  have hfilter : (sortKeys trialLeb pos ++ sortKeys trialLeb neg).filter
      (fun t => !t.same_speaker) = sortKeys trialLeb neg := by
    apply filter_parts_neg
    · intro t ht
      exact mem_map_mk_flag (List.mem_dedup.mp ((mem_sortKeys _ _ t).mp ht))
    · intro t ht
      exact mem_map_mk_flag (List.mem_dedup.mp ((mem_sortKeys _ _ t).mp ht))
  refine ⟨_, hgen, ?_, ?_⟩
  · rw [hfilter]
    exact sortKeys_nodup _ (List.nodup_dedup _)
  · intro t
    rw [hfilter, mem_sortKeys, hnegdef, List.mem_dedup, List.mem_map]
    constructor
    · rintro ⟨p, hp, rfl⟩
      rcases ((hiff2 rfl) p).mp hp with ⟨a, b, ha, hb, hne, hg, hc⟩
      exact ⟨a, b, ha, hb, hne, hg, by rw [hc]⟩
    · rintro ⟨a, b, ha, hb, hne, hg, rfl⟩
      exact ⟨canonPair (a, b), ((hiff2 rfl) (canonPair (a, b))).mpr
        ⟨a, b, ha, hb, hne, hg, rfl⟩, rfl⟩

theorem negative_correctness_witness :
    (["x", "y"] : List String).Nodup ∧
    (∃ ts, generate_speaker_trials ["x", "y"] (fun s : String => s)
        (fun _ : String => "f") true none = some ts ∧
      (ts.filter (fun t => !t.same_speaker)).Nodup ∧
      (∀ t, t ∈ ts.filter (fun t => !t.same_speaker) ↔
        ∃ a b : String, a ∈ (["x", "y"] : List String) ∧
          b ∈ (["x", "y"] : List String) ∧
          (fun s : String => s) a ≠ (fun s : String => s) b ∧
          (true = true → (fun _ : String => "f") ((fun s : String => s) a) =
            (fun _ : String => "f") ((fun s : String => s) b)) ∧
          t = SpeakerTrial.mk (canonPair (a, b)).1 (canonPair (a, b)).2 false)) :=
  ⟨by decide, negative_correctness ["x", "y"] (fun s : String => s)
    (fun _ : String => "f") true (by decide)⟩

end GenSpeakerTrials

namespace GenSpeakerTrials

theorem canonPair_idem (p : RawPair) : canonPair (canonPair p) = canonPair p := by
  conv_lhs => rw [canonPair]
  rw [if_pos (canonPair_sorted p)]

/-- C5: for a duplicate-free sample set with one speaker per sample, the final
trial list never repeats an unordered sample pair: the canonicalized pairs of
the returned trials are pairwise distinct. In particular no pair occurs both as
a positive and as a negative trial (two such trials would share a canonical
pair). -/
theorem no_duplicate_pairs (samples : List String)
    (mapS gmap : String → String) (ess : Bool) (limit : Option Nat)
    (hnd : samples.Nodup) {ts : List SpeakerTrial}
    (hgen : generate_speaker_trials samples mapS gmap ess limit = some ts) :
    (ts.map (fun t => canonPair (t.left, t.right))).Nodup := by
  obtain ⟨posP, hok1, hnd1, hsub1, -⟩ := positive_pairs_spec samples mapS hnd limit
  obtain ⟨negP, hok2, hnd2, hsub2, -⟩ :=
    negative_pairs_spec samples mapS gmap ess hnd limit
  have hgen2 := generate_eq hok1 hok2
  rw [hgen, Option.some.injEq] at hgen2
  have hinjT : Function.Injective
      (fun p : RawPair => SpeakerTrial.mk p.1 p.2 true) := by
    intro p q h
    simp only [SpeakerTrial.mk.injEq] at h
    obtain ⟨p1, p2⟩ := p
    obtain ⟨q1, q2⟩ := q
    simp only at h
    rw [h.1, h.2.1]
  have hinjF : Function.Injective
      (fun p : RawPair => SpeakerTrial.mk p.1 p.2 false) := by
    intro p q h
    simp only [SpeakerTrial.mk.injEq] at h
    obtain ⟨p1, p2⟩ := p
    obtain ⟨q1, q2⟩ := q
    simp only at h
    rw [h.1, h.2.1]
  have hcanon1 : ∀ c ∈ posP, canonPair c = c := by
    intro c hc
    rcases hsub1 c hc with ⟨a, b, -, -, -, -, rfl⟩
    exact canonPair_idem (a, b)
  have hcanon2 : ∀ c ∈ negP, canonPair c = c := by
    intro c hc
    rcases hsub2 c hc with ⟨a, b, -, -, -, -, rfl⟩
    exact canonPair_idem (a, b)
  have hposmap :
      (((posP.map (fun p => SpeakerTrial.mk p.1 p.2 true)).dedup).map
        (fun t => canonPair (t.left, t.right))) = posP := by
    rw [List.Nodup.dedup (hnd1.map hinjT), List.map_map]
    calc posP.map ((fun t => canonPair (t.left, t.right)) ∘
          (fun p : RawPair => SpeakerTrial.mk p.1 p.2 true)) =
        posP.map id := List.map_congr_left (fun c hc => hcanon1 c hc)
      _ = posP := List.map_id posP
  have hnegmap :
      (((negP.map (fun p => SpeakerTrial.mk p.1 p.2 false)).dedup).map
        (fun t => canonPair (t.left, t.right))) = negP := by
    rw [List.Nodup.dedup (hnd2.map hinjF), List.map_map]
    calc negP.map ((fun t => canonPair (t.left, t.right)) ∘
          (fun p : RawPair => SpeakerTrial.mk p.1 p.2 false)) =
        negP.map id := List.map_congr_left (fun c hc => hcanon2 c hc)
      _ = negP := List.map_id negP
  have hperm : (ts.map (fun t => canonPair (t.left, t.right))).Perm
      (posP ++ negP) := by
    rw [hgen2, List.map_append]
    refine List.Perm.trans
      (((sortKeys_perm trialLeb _).map _).append
        ((sortKeys_perm trialLeb _).map _)) ?_
    rw [hposmap, hnegmap]
  rw [hperm.nodup_iff]
  rw [List.nodup_append]
  refine ⟨hnd1, hnd2, ?_⟩
  intro c hc1 hc2
  rcases hsub1 c hc1 with ⟨a, b, -, -, -, hsame, hc⟩
  rcases hsub2 c hc2 with ⟨a', b', -, -, hdiff, -, hc'⟩
  have heq : canonPair (a, b) = canonPair (a', b') := by rw [← hc, ← hc']
  rcases (canonPair_eq_iff a b a' b').mp heq with ⟨he1, he2⟩ | ⟨he1, he2⟩
  · exact hdiff (by rw [← he1, ← he2, hsame])
  · exact hdiff (by rw [← he1, ← he2, hsame])
  
theorem no_duplicate_pairs_witness :
    (["x", "y"] : List String).Nodup ∧
    generate_speaker_trials ["x", "y"] (fun s : String => s)
      (fun _ : String => "f") true none =
      some [SpeakerTrial.mk "x" "y" false] ∧
    (([SpeakerTrial.mk "x" "y" false] : List SpeakerTrial).map
      (fun t => canonPair (t.left, t.right))).Nodup :=
  ⟨by decide, by decide, no_duplicate_pairs ["x", "y"] (fun s : String => s)
    (fun _ : String => "f") true none (by decide) (by decide)⟩

end GenSpeakerTrials

namespace GenSpeakerTrials

/-- Number of pairs of the scheduler output `L` contributed by a group whose
generator yields `v`: the output pairs lying among the group's canonicalized
yields (under claim C6's well-formedness the groups' canonical yields are
disjoint, so each output pair is counted for exactly one group). -/
def contribution (L : List RawPair) (v : List RawPair) : Nat :=
  (L.filter (fun c => decide (c ∈ v.map canonPair))).length

theorem filter_consumedCanon_length [DecidableEq K] {G : GenDict K} {t : K → Nat}
    (hH1 : (allCanon G).Nodup) {kv : K × List RawPair} (hkv : kv ∈ G)
    (hle : ∀ kv' ∈ G, t kv'.1 ≤ kv'.2.length) :
    ((consumedCanon G t).filter
      (fun c => decide (c ∈ kv.2.map canonPair))).length = t kv.1 := by
  induction G with
  | nil => cases hkv
  | cons kv0 tl ih =>
    simp only [allCanon, List.flatMap_cons] at hH1
    rcases List.nodup_append.mp hH1 with ⟨hnd0, hndtl, hdisj⟩
    have hcons : consumedCanon (kv0 :: tl) t =
        ((kv0.2.take (t kv0.1)).map canonPair) ++ consumedCanon tl t := by
      simp only [consumedCanon, List.flatMap_cons]
    rw [hcons, List.filter_append, List.length_append]
    rcases List.mem_cons.mp hkv with rfl | hkvtl
    · have hfirst : ((kv.2.take (t kv.1)).map canonPair).filter
          (fun c => decide (c ∈ kv.2.map canonPair)) =
          (kv.2.take (t kv.1)).map canonPair := by
        apply List.filter_eq_self.mpr
        intro c hc
        simp only [decide_eq_true_eq]
        exact ((List.take_sublist _ _).map canonPair).mem hc
      have hsecond : (consumedCanon tl t).filter
          (fun c => decide (c ∈ kv.2.map canonPair)) = [] := by
        apply List.filter_eq_nil_iff.mpr
        intro c hc
        simp only [decide_eq_true_eq]
        intro hcmem
        exact hdisj hcmem ((consumedCanon_sublist tl t).mem hc)
      rw [hfirst, hsecond, List.length_map, List.length_take,
        Nat.min_eq_left (hle kv (List.mem_cons_self _ _)), List.length_nil]
      omega
    · have hfirst : ((kv0.2.take (t kv0.1)).map canonPair).filter
          (fun c => decide (c ∈ kv.2.map canonPair)) = [] := by
        apply List.filter_eq_nil_iff.mpr
        intro c hc
        simp only [decide_eq_true_eq]
        intro hcmem
        exact hdisj (((List.take_sublist _ _).map canonPair).mem hc)
          (List.mem_flatMap.mpr ⟨kv, hkvtl, hcmem⟩)
      rw [hfirst, List.length_nil,
        ih hndtl hkvtl (fun kv' hkv' => hle kv' (List.mem_cons_of_mem _ hkv'))]
      omega

/-- C4, amended: on a well-formed generator dictionary (distinct keys, globally
distinct canonical yields — the situation of both modes under C6's
precondition), with `limit = some N`, any two groups' contribution counts
differ by at most 1 **or** the group with the smaller count has yielded every
pair it has: an exhausted group stops contributing while the round-robin
continues, so its count may lag arbitrarily (the unqualified at-most-1 gap of
the original claim is refuted by `limit_fairness_cex`). -/
theorem limit_fairness [DecidableEq K] (le : K → K → Bool) (G : GenDict K)
    (hGnd : (G.map (·.1)).Nodup) (hH1 : (allCanon G).Nodup) (N : Nat) :
    ∃ L, exhaust_pairs_iterator_dictionary le G (some N) = .ok L ∧
      ∀ kv1 ∈ G, ∀ kv2 ∈ G,
        contribution L kv2.2 ≤ contribution L kv1.2 + 1 ∨
        contribution L kv1.2 = kv1.2.length := by
  obtain ⟨t', L, hok, hperm, hle, hfair, -, -⟩ := exhaust_run le G hGnd hH1 (some N)
  refine ⟨L, hok, ?_⟩
  intro kv1 hkv1 kv2 hkv2
  have h1 : contribution L kv1.2 = t' kv1.1 := by
    rw [contribution, (hperm.filter _).length_eq,
      filter_consumedCanon_length hH1 hkv1 hle]
  have h2 : contribution L kv2.2 = t' kv2.1 := by
    rw [contribution, (hperm.filter _).length_eq,
      filter_consumedCanon_length hH1 hkv2 hle]
  by_cases hcase : t' kv2.1 ≤ t' kv1.1 + 1
  · left
    rw [h1, h2]
    exact hcase
  · right
    rw [h1]
    exact hfair kv1 hkv1 kv2 hkv2 (by omega)

theorem limit_fairness_witness :
    ((([("a", [(("x", "y") : RawPair)]), ("b", [("u", "v")])] :
        GenDict String).map (·.1)).Nodup ∧
      (allCanon ([("a", [("x", "y")]), ("b", [("u", "v")])] :
        GenDict String)).Nodup) ∧
    (∃ L, exhaust_pairs_iterator_dictionary strLeb
        ([("a", [("x", "y")]), ("b", [("u", "v")])] : GenDict String)
        (some 1) = .ok L ∧
      ∀ kv1 ∈ ([("a", [("x", "y")]), ("b", [("u", "v")])] : GenDict String),
        ∀ kv2 ∈ ([("a", [("x", "y")]), ("b", [("u", "v")])] : GenDict String),
          contribution L kv2.2 ≤ contribution L kv1.2 + 1 ∨
          contribution L kv1.2 = kv1.2.length) :=
  ⟨⟨by decide, by decide⟩, limit_fairness strLeb
    [("a", [("x", "y")]), ("b", [("u", "v")])] (by decide) (by decide) 1⟩

/-- C4 counterexample to the unqualified claim: positive mode with three
speakers holding 1, 10 and 10 combinations (21 > limit 7); the single-pair
group contributes 1 pair and another group contributes 3, a gap of 2 between
two contributing groups. -/
theorem limit_fairness_cex :
    positive_pairs
      [("a", ["h", "i"]), ("b", ["j", "k", "l", "m", "n"]),
        ("c", ["o", "p", "q", "r", "s"])] (some 7) =
      .ok [("o", "p"), ("j", "k"), ("h", "i"), ("o", "q"), ("j", "l"),
        ("o", "r"), ("j", "m")] ∧
    contribution [("o", "p"), ("j", "k"), ("h", "i"), ("o", "q"), ("j", "l"),
        ("o", "r"), ("j", "m")] (combinations2 ["h", "i"]) = 1 ∧
    contribution [("o", "p"), ("j", "k"), ("h", "i"), ("o", "q"), ("j", "l"),
        ("o", "r"), ("j", "m")] (combinations2 ["o", "p", "q", "r", "s"]) = 3 ∧
    7 < (combinations2 ["h", "i"]).length +
      ((combinations2 ["j", "k", "l", "m", "n"]).length +
        (combinations2 ["o", "p", "q", "r", "s"]).length) := by
  decide

end GenSpeakerTrials

namespace GenSpeakerTrials

theorem sorted_trials_map_eq {l1 l2 : List SpeakerTrial} (hp : l1.Perm l2) :
    (sortKeys trialLeb l1).map trialStr = (sortKeys trialLeb l2).map trialStr := by
  haveI : IsAntisymm String (fun a b => strLeb a b = true) :=
    ⟨fun a b h1 h2 => strLeb_antisymm h1 h2⟩
  have htot : ∀ t1 t2 : SpeakerTrial, trialLeb t1 t2 = true ∨ trialLeb t2 t1 = true :=
    fun t1 t2 => strLeb_total (trialStr t1) (trialStr t2)
  have htr : ∀ t1 t2 t3 : SpeakerTrial, trialLeb t1 t2 = true →
      trialLeb t2 t3 = true → trialLeb t1 t3 = true :=
    fun t1 t2 t3 h1 h2 => strLeb_trans h1 h2
  apply List.eq_of_perm_of_sorted
    (r := fun a b => strLeb a b = true)
  · exact (((sortKeys_perm trialLeb l1).trans hp).trans
      (sortKeys_perm trialLeb l2).symm).map trialStr
  · exact List.pairwise_map.mpr (pairwise_sortKeys htot htr l1)
  · exact List.pairwise_map.mpr (pairwise_sortKeys htot htr l2)

/-- C1, amended: with `limit_num_trials` unset, the written bytes (each trial's
`str` representation, in order) are identical for any two ingestion orders of
the same sample set. With a limit set the claim fails (`determinism_cex`): the
scheduler stops mid-round at a state that depends on the groups' sample order,
which comes from ingestion order. -/
theorem determinism (samples1 samples2 : List String)
    (mapS gmap : String → String) (ess : Bool)
    (hnd : samples1.Nodup) (hp : samples1.Perm samples2) :
    ∃ ts1 ts2, generate_speaker_trials samples1 mapS gmap ess none = some ts1 ∧
      generate_speaker_trials samples2 mapS gmap ess none = some ts2 ∧
      ts1.map trialStr = ts2.map trialStr := by
  have hnd2 : samples2.Nodup := hp.nodup_iff.mp hnd
  obtain ⟨posP1, hok11, hnd11, -, hiff11⟩ := positive_pairs_spec samples1 mapS hnd none
  obtain ⟨negP1, hok12, hnd12, -, hiff12⟩ :=
    negative_pairs_spec samples1 mapS gmap ess hnd none
  obtain ⟨posP2, hok21, hnd21, -, hiff21⟩ := positive_pairs_spec samples2 mapS hnd2 none
  obtain ⟨negP2, hok22, hnd22, -, hiff22⟩ :=
    negative_pairs_spec samples2 mapS gmap ess hnd2 none
  have hppos : posP1.Perm posP2 := by
    apply (List.perm_ext_iff_of_nodup hnd11 hnd21).mpr
    intro c
    rw [hiff11 rfl c, hiff21 rfl c]
    constructor <;> rintro ⟨a, b, ha, hb, hne, hm, hc⟩
    · exact ⟨a, b, hp.mem_iff.mp ha, hp.mem_iff.mp hb, hne, hm, hc⟩
    · exact ⟨a, b, hp.mem_iff.mpr ha, hp.mem_iff.mpr hb, hne, hm, hc⟩
  have hpneg : negP1.Perm negP2 := by
    apply (List.perm_ext_iff_of_nodup hnd12 hnd22).mpr
    intro c
    rw [hiff12 rfl c, hiff22 rfl c]
    constructor <;> rintro ⟨a, b, ha, hb, hne, hm, hc⟩
    · exact ⟨a, b, hp.mem_iff.mp ha, hp.mem_iff.mp hb, hne, hm, hc⟩
    · exact ⟨a, b, hp.mem_iff.mpr ha, hp.mem_iff.mpr hb, hne, hm, hc⟩
  refine ⟨_, _, generate_eq hok11 hok12, generate_eq hok21 hok22, ?_⟩
  rw [List.map_append, List.map_append]
  rw [sorted_trials_map_eq ((hppos.map _).dedup),
    sorted_trials_map_eq ((hpneg.map _).dedup)]

theorem determinism_witness :
    ((["x", "y"] : List String).Nodup ∧
      (["x", "y"] : List String).Perm ["y", "x"]) ∧
    (∃ ts1 ts2, generate_speaker_trials ["x", "y"] (fun s : String => s)
        (fun _ : String => "f") true none = some ts1 ∧
      generate_speaker_trials ["y", "x"] (fun s : String => s)
        (fun _ : String => "f") true none = some ts2 ∧
      ts1.map trialStr = ts2.map trialStr) :=
  ⟨⟨by decide, List.Perm.swap "y" "x" []⟩, determinism ["x", "y"] ["y", "x"]
    (fun s : String => s) (fun _ : String => "f") true (by decide)
    (List.Perm.swap "y" "x" [])⟩

/-- C1 counterexample: with a limit set, two ingestion orders of the same
3-sample set give different outputs (the first positive pair drawn depends on
the group's sample order). -/
theorem determinism_cex :
    ¬ (generate_speaker_trials ["x", "y", "z"] (fun _ : String => "s")
        (fun _ : String => "f") true (some 1) =
      generate_speaker_trials ["z", "y", "x"] (fun _ : String => "s")
        (fun _ : String => "f") true (some 1)) := by
  decide

end GenSpeakerTrials
